import Mathlib

/-!
Verification of the succinct-data-structure cores of `bsuccinct-rs`:

* Core A — canonical minimum-redundancy (Huffman) coding of arbitrary degree
  (`minimum_redundancy/src/lib.rs`): the in-place `from_sorted` construction,
  the level/codes iterators and the fragment-by-fragment decoder.
* Core B — fingerprinting-based minimal perfect hash function
  (`ph/src/fmph/function.rs`, `ph/src/fp/keyset.rs`): the
  first-set-then-cancel level bit-array protocol, the level-building loop,
  lookup, and the mutable-slice key set.

Rust `u32`/`u64` values are embedded as `Nat`; additions that can wrap in the
source carry an explicit `% 2^32`.  Array reads are embedded with `List.getD`
and writes with `List.set`; all theorems below carry hypotheses under which
every access the source performs is in bounds, so the embedding agrees with
the Rust semantics on the stated domains.
-/

namespace BSuccinct

set_option maxHeartbeats 1000000

/-- `natFold f n a` applies `f 0`, `f 1`, …, `f (n-1)` to `a`, in this order
(the embedding of Rust `for i in 0..n` loops). -/
def natFold {α : Type _} (f : Nat → α → α) : Nat → α → α
  | 0, a => a
  | n + 1, a => f n (natFold f n a)

/-- Count of `i < n` satisfying `p` — used both for `rank1` and popcount. -/
def cntBelow (p : Nat → Bool) (n : Nat) : Nat := (List.range n).countP p

theorem cntBelow_succ (p : Nat → Bool) (n : Nat) :
    cntBelow p (n + 1) = cntBelow p n + (if p n then 1 else 0) := by
  simp [cntBelow, List.range_succ, List.countP_append, List.countP_cons]

theorem cntBelow_zero (p : Nat → Bool) : cntBelow p 0 = 0 := rfl

theorem cntBelow_mono (p : Nat → Bool) {m n : Nat} (h : m ≤ n) :
    cntBelow p m ≤ cntBelow p n := by
  induction n with
  | zero => simp_all [cntBelow_zero, Nat.le_zero.mp h]
  | succ n ih =>
    rcases Nat.lt_or_ge m (n + 1) with hlt | hge
    · exact le_trans (ih (Nat.lt_succ_iff.mp hlt)) (by rw [cntBelow_succ]; omega)
    · have : m = n + 1 := le_antisymm h hge
      subst this; exact le_refl _

theorem cntBelow_lt_of_true (p : Nat → Bool) {i n : Nat} (hi : i < n) (hp : p i = true) :
    cntBelow p i < cntBelow p n := by
  have h1 : cntBelow p i + 1 ≤ cntBelow p (i + 1) := by rw [cntBelow_succ, hp]; simp
  exact lt_of_lt_of_le (Nat.lt_of_lt_of_le (Nat.lt_succ_self _) h1) (cntBelow_mono p hi)

theorem cntBelow_strict_inj (p : Nat → Bool) {i j : Nat}
    (hpi : p i = true) (hpj : p j = true)
    (h : cntBelow p i = cntBelow p j) : i = j := by
  rcases Nat.lt_trichotomy i j with hij | hij | hij
  · exact absurd h (Nat.ne_of_lt (cntBelow_lt_of_true p hij hpi))
  · exact hij
  · exact absurd h.symm (Nat.ne_of_lt (cntBelow_lt_of_true p hij hpj))

theorem cntBelow_surj (p : Nat → Bool) (n : Nat) :
    ∀ v < cntBelow p n, ∃ i < n, p i = true ∧ cntBelow p i = v := by
  induction n with
  | zero => intro v hv; simp [cntBelow_zero] at hv
  | succ n ih =>
    intro v hv
    rw [cntBelow_succ] at hv
    by_cases hp : p n = true
    · rcases Nat.lt_or_ge v (cntBelow p n) with h | h
      · obtain ⟨i, hi, hpi, hc⟩ := ih v h
        exact ⟨i, Nat.lt_succ_of_lt hi, hpi, hc⟩
      · have : v = cntBelow p n := by simp [hp] at hv; omega
        exact ⟨n, Nat.lt_succ_self _, hp, this.symm⟩
    · simp [hp] at hv
      obtain ⟨i, hi, hpi, hc⟩ := ih v (by omega)
      exact ⟨i, Nat.lt_succ_of_lt hi, hpi, hc⟩

/-!
## Core A: minimum-redundancy coding (`minimum_redundancy/src/lib.rs`)
-/

/-- `Code{bits, fragments}` — `bits` is the value of the codeword written in
base `d` with `fragments` digits, most significant digit first. -/
structure Code where
  bits : Nat
  fragments : Nat
  deriving DecidableEq, Repr

/-- Succinct representation of a minimum-redundancy coding
(struct `Coding`; `degree` embeds `TreeDegree::as_u32()`). -/
structure Coding (V : Type _) where
  values : List V
  internalNodesCount : List Nat
  degree : Nat

/-- Result of fragment decoding (enum `DecodingResult`). -/
inductive DecodingResult (V : Type _) where
  | Value (v : V)
  | Incomplete
  | Invalid
  deriving DecidableEq, Repr

/-- Decoder state (struct `Decoder`, without the borrowed coding). -/
structure DecoderSt where
  shift : Nat
  firstLeafNr : Nat
  levelSize : Nat
  level : Nat
  deriving DecidableEq, Repr

/-- `Decoder::new` -/
def newDecoder {V : Type _} (c : Coding V) : DecoderSt :=
  ⟨0, 0, c.degree, 0⟩

/-- `Decoder::consume`.  In the leaf branch `shift ≥ internal_nodes_count`,
so the `u32` subtraction `first_leaf_nr + shift - internal_nodes_count`
is the `Nat` subtraction used here. -/
def consume {V : Type _} (c : Coding V) (s : DecoderSt) (fragment : Nat) :
    DecodingResult V × DecoderSt :=
  let shift := s.shift + fragment
  let inc := c.internalNodesCount.getD s.level 0
  if shift < inc then
    (.Incomplete,
      ⟨c.degree * shift, s.firstLeafNr + (s.levelSize - inc), c.degree * inc, s.level + 1⟩)
  else
    match c.values.get? (s.firstLeafNr + shift - inc) with
    | some v => (.Value v, { s with shift := shift })
    | none => (.Invalid, { s with shift := shift })

/-- `Decoder::consume_checked` -/
def consumeChecked {V : Type _} (c : Coding V) (s : DecoderSt) (fragment : Nat) :
    DecodingResult V × DecoderSt :=
  if fragment < c.degree then consume c s fragment else (.Invalid, s)

/-- Feed a list of fragments to the decoder, collecting the results. -/
def consumeSeq {V : Type _} (c : Coding V) : DecoderSt → List Nat → List (DecodingResult V)
  | _, [] => []
  | s, f :: rest =>
    let r := consume c s f
    r.1 :: consumeSeq c r.2 rest

/-- The flattened output of `CodesIterator` (`codes()`): per level, the leaves
get consecutive codewords starting at the level's internal-node count.
Structural recursion over `internal_nodes_count` mirrors the iterator, which
reads `internal_nodes_count[level]` and stops once all values are exhausted. -/
def codesAux {V : Type _} (d : Nat) :
    List V → List Nat → Nat → Nat → List (V × Code)
  | _, [], _, _ => []
  | vals, i :: rest, levelSize, level =>
    let leaves := levelSize - i
    ((vals.take leaves).enum.map (fun p => (p.2, ⟨i + p.1, level + 1⟩)))
      ++ codesAux d (vals.drop leaves) rest (d * i) (level + 1)

/-- `Coding::codes` as a list of `(value, code)` pairs. -/
def codesList {V : Type _} (c : Coding V) : List (V × Code) :=
  codesAux c.degree c.values c.internalNodesCount c.degree 0

/-- The `fragments` base-`d` digits of `bits`, most significant first. -/
def digitsBase (d bits fragments : Nat) : List Nat :=
  (List.range fragments).map (fun t => bits / d ^ (fragments - 1 - t) % d)

/-!
### `Coding::from_sorted` — the in-place construction
-/

/-- Merge-pass state: the `freq` array doubling as weights and parent
pointers, and the two cursors `internals_begin`, `leafs_begin`. -/
structure MergeSt where
  freq : List Nat
  ib : Nat
  lb : Nat
  deriving Repr

/-- Selection condition for the first item of a merge:
`leafs_begin >= len || freq[internals_begin] < freq[leafs_begin]`
(`true` = take the internal node). -/
def selectFirst (freq : List Nat) (n ib lb : Nat) : Bool :=
  n ≤ lb || freq.getD ib 0 < freq.getD lb 0

/-- Selection condition for the second and later items of a merge:
`leafs_begin >= len || (internals_begin < next && freq[internals_begin] < freq[leafs_begin])`. -/
def selectNext (freq : List Nat) (n ib lb next : Nat) : Bool :=
  n ≤ lb || (ib < next && freq.getD ib 0 < freq.getD lb 0)

/-- First item of merge `next`: `freq[next] = …` then, when an internal is
taken, `freq[internals_begin] = next` (the weight slot becomes a parent
pointer). -/
def mergeFirst (n next : Nat) (s : MergeSt) : MergeSt :=
  if selectFirst s.freq n s.ib s.lb then
    ⟨(s.freq.set next (s.freq.getD s.ib 0)).set s.ib next, s.ib + 1, s.lb⟩
  else
    ⟨s.freq.set next (s.freq.getD s.lb 0), s.ib, s.lb + 1⟩

/-- A later item of merge `next`: `freq[next] += …` (wrapping `u32` add). -/
def mergeAdd (n next : Nat) (s : MergeSt) : MergeSt :=
  if selectNext s.freq n s.ib s.lb next then
    ⟨(s.freq.set next ((s.freq.getD next 0 + s.freq.getD s.ib 0) % 2 ^ 32)).set s.ib next,
      s.ib + 1, s.lb⟩
  else
    ⟨s.freq.set next ((s.freq.getD next 0 + s.freq.getD s.lb 0) % 2 ^ 32), s.ib, s.lb + 1⟩

/-- One merge: the first item, then `c - 1` further items. -/
def mergeStep (n c next : Nat) (s : MergeSt) : MergeSt :=
  (mergeAdd n next)^[c - 1] (mergeFirst n next s)

/-- The whole merging pass: merges `0, …, m-1`, the first with branching
factor `c₁`, the rest with `d`. -/
def mergeLoop (n d c₁ m : Nat) (freq : List Nat) : MergeSt :=
  natFold (fun next s => mergeStep n (if next = 0 then c₁ else d) next s) m ⟨freq, 0, 0⟩

/-- `freq[next] = freq[freq[next]] + 1` — one step of depth propagation. -/
def depthAt (fr : List Nat) (next : Nat) : List Nat :=
  fr.set next (fr.getD (fr.getD next 0) 0 + 1)

/-- Depth propagation right to left: `depthLoop fr t` processes
`next = t-1, …, 0`. -/
def depthLoop : List Nat → Nat → List Nat
  | fr, 0 => fr
  | fr, t + 1 => depthLoop (depthAt fr t) t

/-- The tracked maximum depth; the source keeps it in a `u8`, hence the
`% 2^8` truncation of each compared value. -/
def maxDepth (fr : List Nat) (m : Nat) : Nat :=
  natFold (fun i acc => max acc (fr.getD i 0 % 2 ^ 8)) m 0

/-- The histogram pass: `internal_nodes_count[freq[i] - 1] += 1` for
`i < m` (the root is skipped by the caller passing `m = M - 1`). -/
def countsLoop (fr : List Nat) (m : Nat) (init : List Nat) : List Nat :=
  natFold (fun i cnt => cnt.set (fr.getD i 0 - 1) (cnt.getD (fr.getD i 0 - 1) 0 + 1)) m init

/-- `current_tree_degree` before the first merge: `(len - 1) % (d - 1)`,
replaced by `d` when zero and incremented otherwise. -/
def fsC1 (n d : Nat) : Nat :=
  if (n - 1) % (d - 1) = 0 then d else (n - 1) % (d - 1) + 1

/-- `internal_nodes_size = (len + reduction_per_step - 2) / reduction_per_step`
(that is, `(len - 1) / (d - 1)` rounded up). -/
def fsM (n d : Nat) : Nat := (n + (d - 1) - 2) / (d - 1)

/-- The `freq` array after the merging pass and the right-to-left depth
propagation (`freq[m-1] = 0` for the root, then
`freq[next] = freq[freq[next]] + 1` for `next = m-2, …, 0`). -/
def fsDepths (n d : Nat) (freq : List Nat) : List Nat :=
  depthLoop ((mergeLoop n d (fsC1 n d) (fsM n d) freq).freq.set (fsM n d - 1) 0)
    (fsM n d - 1)

/-- `Coding::from_sorted` for degree `d = degree.as_u32()`. -/
def fromSorted {V : Type _} (d : Nat) (values : List V) (freq : List Nat) : Coding V :=
  let len := freq.length
  if len ≤ d then
    ⟨values.reverse, [0], d⟩
  else
    let fr2 := fsDepths len d freq
    let md := maxDepth fr2 (fsM len d - 1)
    let counts := countsLoop fr2 (fsM len d - 1) (List.replicate (md + 1) 0)
    ⟨values.reverse, counts, d⟩

/-!
### Claim C6 — tie-break between internal nodes and leaves

The source takes the internal node precisely when its weight is *strictly
less* than the leaf weight (or the leaves are exhausted); on equal weights
the strictly-less test fails and the *leaf* is consumed first.
-/

/-- C6 counterexample.  Running `from_sorted` on the non-descending
frequencies `[1, 1, 2, 2]` with degree 2: after merge 0 the state is
`freq = [2, 1, 2, 2], internals_begin = 0, leafs_begin = 2`, so the smallest
internal weight (`freq[0] = 2`) equals the smallest leaf weight
(`freq[2] = 2`) — and the first selection of merge 1 consumes the *leaf*
(`leafs_begin` advances to 3, `internals_begin` stays 0), contradicting the
claim that the internal node is consumed before the leaf on ties. -/
theorem c6_counterexample :
    (mergeStep 4 2 0 ⟨[1, 1, 2, 2], 0, 0⟩).freq = [2, 1, 2, 2] ∧
    (mergeStep 4 2 0 ⟨[1, 1, 2, 2], 0, 0⟩).ib = 0 ∧
    (mergeStep 4 2 0 ⟨[1, 1, 2, 2], 0, 0⟩).lb = 2 ∧
    ([2, 1, 2, 2] : List Nat).getD 0 0 = ([2, 1, 2, 2] : List Nat).getD 2 0 ∧
    selectFirst [2, 1, 2, 2] 4 0 2 = false ∧
    (mergeFirst 4 1 ⟨[2, 1, 2, 2], 0, 2⟩).lb = 3 ∧
    (mergeFirst 4 1 ⟨[2, 1, 2, 2], 0, 2⟩).ib = 0 := by decide

/-- C6 (amended): in the merging pass of `from_sorted`, an internal node is
selected iff its weight is strictly less than the smallest leaf weight (or
the leaves are exhausted; a later item additionally requires
`internals_begin < next`); in particular, on equal weights the leaf is
consumed first (`leafs_begin` advances, `internals_begin` does not). -/
theorem c6_tie_break_amended (freq : List Nat) (n ib lb next : Nat) (hlb : lb < n) :
    (selectFirst freq n ib lb = true ↔ freq.getD ib 0 < freq.getD lb 0) ∧
    (selectNext freq n ib lb next = true ↔ ib < next ∧ freq.getD ib 0 < freq.getD lb 0) ∧
    (freq.getD ib 0 = freq.getD lb 0 →
      (mergeFirst n next ⟨freq, ib, lb⟩).lb = lb + 1 ∧
      (mergeFirst n next ⟨freq, ib, lb⟩).ib = ib ∧
      (mergeAdd n next ⟨freq, ib, lb⟩).lb = lb + 1 ∧
      (mergeAdd n next ⟨freq, ib, lb⟩).ib = ib) := by
  have hnlb : ¬ (n ≤ lb) := Nat.not_le.mpr hlb
  refine ⟨?_, ?_, ?_⟩
  · simp [selectFirst, hnlb]
  · simp [selectNext, hnlb]
  · intro htie
    have h1 : selectFirst freq n ib lb = false := by
      simp only [selectFirst, Bool.or_eq_false_iff, decide_eq_false_iff_not]
      exact ⟨hnlb, by rw [htie]; exact lt_irrefl _⟩
    have h2 : selectNext freq n ib lb next = false := by
      simp only [selectNext, Bool.or_eq_false_iff, Bool.and_eq_false_iff,
        decide_eq_false_iff_not]
      exact ⟨hnlb, Or.inr (by rw [htie]; exact lt_irrefl _)⟩
    refine ⟨?_, ?_, ?_, ?_⟩ <;> simp [mergeFirst, mergeAdd, h1, h2]

/-- C6 witness: the amended theorem applied at the concrete tie state
`freq = [7, 7], internals_begin = 0, leafs_begin = 1`. -/
theorem c6_witness :
    (mergeFirst 2 1 ⟨[7, 7], 0, 1⟩).lb = 2 ∧ (mergeFirst 2 1 ⟨[7, 7], 0, 1⟩).ib = 0 := by
  have h := c6_tie_break_amended [7, 7] 2 0 1 1 (by decide)
  exact ⟨(h.2.2 (by decide)).1, (h.2.2 (by decide)).2.1⟩

/-!
### Claim C7 — when the decoder reports `Invalid`

`consume` performs no range check on the fragment; only `consume_checked`
rejects `fragment ≥ d`.  An over-range fragment fed to `consume` can land on
a perfectly valid leaf.
-/

/-- C7 counterexample.  For the repository's own 6-symbol degree-4 coding
(`internal_nodes_count = [1, 0]`, values `[0,…,5]`), the fragment `4 ≥ d = 4`
fed to a fresh decoder via `consume` returns `Value 3` (the leaf at index
`4 - 1 = 3`), not `Invalid` — refuting the claim that *both* `consume` and
`consume_checked` return `Invalid` whenever the fragment is `≥ d`. -/
theorem c7_counterexample :
    (consume (⟨[0, 1, 2, 3, 4, 5], [1, 0], 4⟩ : Coding Nat)
        (newDecoder (⟨[0, 1, 2, 3, 4, 5], [1, 0], 4⟩ : Coding Nat)) 4).1
      = DecodingResult.Value 3 ∧
    (consume (⟨[0, 1, 2, 3, 4, 5], [1, 0], 4⟩ : Coding Nat)
        (newDecoder (⟨[0, 1, 2, 3, 4, 5], [1, 0], 4⟩ : Coding Nat)) 4).1
      ≠ DecodingResult.Invalid := by decide

/-- C7 (amended): `consume_checked` returns `Invalid` whenever the fragment
is `≥ d` and otherwise agrees with `consume`; `consume` (whose result is
documented as undefined for fragments `≥ d`) returns `Invalid` iff the
traversal lands at or past the leaf range
(`shift ≥ internal_nodes_count[level]` and the leaf index reaches
`values.len()`); below the internal-node count it returns `Incomplete`, and
on an in-range leaf it returns a `Value`. -/
theorem consume_spec {V : Type _} (c : Coding V) (s : DecoderSt) (f : Nat) :
    consume c s f =
      if s.shift + f < c.internalNodesCount.getD s.level 0 then
        (.Incomplete, ⟨c.degree * (s.shift + f),
          s.firstLeafNr + (s.levelSize - c.internalNodesCount.getD s.level 0),
          c.degree * c.internalNodesCount.getD s.level 0, s.level + 1⟩)
      else
        match c.values.get?
            (s.firstLeafNr + (s.shift + f) - c.internalNodesCount.getD s.level 0) with
        | some v => (.Value v, { s with shift := s.shift + f })
        | none => (.Invalid, { s with shift := s.shift + f }) := rfl

theorem c7_consume_invalid_amended {V : Type _} (c : Coding V) (s : DecoderSt) (f : Nat) :
    (c.degree ≤ f → (consumeChecked c s f).1 = DecodingResult.Invalid) ∧
    (f < c.degree → consumeChecked c s f = consume c s f) ∧
    ((consume c s f).1 = DecodingResult.Invalid ↔
      c.internalNodesCount.getD s.level 0 ≤ s.shift + f ∧
      c.values.length ≤ s.firstLeafNr + (s.shift + f) - c.internalNodesCount.getD s.level 0) ∧
    (s.shift + f < c.internalNodesCount.getD s.level 0 →
      (consume c s f).1 = DecodingResult.Incomplete) ∧
    (c.internalNodesCount.getD s.level 0 ≤ s.shift + f →
      s.firstLeafNr + (s.shift + f) - c.internalNodesCount.getD s.level 0 < c.values.length →
      ∃ v, (consume c s f).1 = DecodingResult.Value v) := by
  refine ⟨?_, ?_, ?_, ?_, ?_⟩
  · intro h
    simp [consumeChecked, Nat.not_lt.mpr h]
  · intro h
    simp [consumeChecked, h]
  · rw [consume_spec]
    by_cases hlt : s.shift + f < c.internalNodesCount.getD s.level 0
    · rw [if_pos hlt]
      constructor
      · intro h; exact absurd h (by simp)
      · intro h; omega
    · rw [if_neg hlt]
      rcases hget : c.values.get? (s.firstLeafNr + (s.shift + f)
          - c.internalNodesCount.getD s.level 0) with _ | v
      · have hlen : c.values.length ≤ s.firstLeafNr + (s.shift + f)
            - c.internalNodesCount.getD s.level 0 := by
          by_contra hK
          rw [List.get?_eq_get (Nat.lt_of_not_le hK)] at hget
          cases hget
        exact ⟨fun _ => ⟨Nat.not_lt.mp hlt, hlen⟩, fun _ => rfl⟩
      · have hvlt : s.firstLeafNr + (s.shift + f)
            - c.internalNodesCount.getD s.level 0 < c.values.length := by
          by_contra hK
          rw [List.get?_len_le (Nat.le_of_not_lt hK)] at hget
          cases hget
        constructor
        · intro h; exact absurd h (by simp)
        · intro h; omega
  · intro h
    rw [consume_spec, if_pos h]
  · intro h1 h2
    rcases hget : c.values.get? (s.firstLeafNr + (s.shift + f)
        - c.internalNodesCount.getD s.level 0) with _ | v
    · exfalso
      rw [List.get?_eq_get h2] at hget
      cases hget
    · exact ⟨v, by rw [consume_spec, if_neg (Nat.not_lt.mpr h1), hget]⟩

/-- C7 witness: the amended theorem applied at the repository's 3-symbol
binary coding. -/
theorem c7_witness :
    (consumeChecked (⟨[0, 1, 2], [1, 0], 2⟩ : Coding Nat)
        (newDecoder (⟨[0, 1, 2], [1, 0], 2⟩ : Coding Nat)) 9).1 = DecodingResult.Invalid ∧
    (consume (⟨[0, 1, 2], [1, 0], 2⟩ : Coding Nat)
        (newDecoder (⟨[0, 1, 2], [1, 0], 2⟩ : Coding Nat)) 0).1 = DecodingResult.Incomplete := by
  refine ⟨(c7_consume_invalid_amended _ _ 9).1 (by decide), ?_⟩
  exact (c7_consume_invalid_amended _ _ 0).2.2.2.1 (by decide)

/-!
### Claim C3 — decoder/codes round trip

Structural invariants of a well-formed coding: the size of level `t` is `d`
at the top and `d * internal_nodes_count[t-1]` below, and the number of
internal nodes at a level never exceeds the level size.
-/

/-- Size of level `t` as the iterators compute it (`S = d` at the top level,
`d * internal_nodes_count[t-1]` below). -/
def lvlSizeAt (d S : Nat) (inc : List Nat) : Nat → Nat
  | 0 => S
  | t + 1 => d * inc.getD t 0

/-- Number of leaves at levels strictly above level `t`. -/
def lvlLeavesBefore (d S : Nat) (inc : List Nat) : Nat → Nat
  | 0 => 0
  | t + 1 => lvlLeavesBefore d S inc t + (lvlSizeAt d S inc t - inc.getD t 0)

theorem lvlSizeAt_cons (d S i : Nat) (rest : List Nat) (t : Nat) :
    lvlSizeAt d S (i :: rest) (t + 1) = lvlSizeAt d (d * i) rest t := by
  cases t with
  | zero => rfl
  | succ t => rfl

theorem lvlLeavesBefore_cons (d S i : Nat) (rest : List Nat) (t : Nat) :
    lvlLeavesBefore d S (i :: rest) (t + 1) =
      (S - i) + lvlLeavesBefore d (d * i) rest t := by
  induction t with
  | zero => simp [lvlLeavesBefore, lvlSizeAt]
  | succ t ih =>
    show lvlLeavesBefore d S (i :: rest) (t + 1)
        + (lvlSizeAt d S (i :: rest) (t + 1) - (i :: rest).getD (t + 1) 0) = _
    rw [ih, lvlSizeAt_cons, List.getD_cons_succ]
    show _ = (S - i)
        + (lvlLeavesBefore d (d * i) rest t + (lvlSizeAt d (d * i) rest t - rest.getD t 0))
    omega

/-- Characterization of membership in the `codes()` list: each produced pair
sits at some level `t`, is the `j`-th leaf there, has codeword
`internal_nodes_count[t] + j` with `t + 1` fragments, and its value is the
one at index `leaves-above + j` of `values`. -/
theorem codesAux_mem {V : Type _} (d : Nat) :
    ∀ (inc : List Nat) (vals : List V) (S lev : Nat) (v : V) (code : Code),
      (v, code) ∈ codesAux d vals inc S lev →
      ∃ t j, t < inc.length ∧ code.fragments = lev + t + 1 ∧
        code.bits = inc.getD t 0 + j ∧
        j < lvlSizeAt d S inc t - inc.getD t 0 ∧
        vals.get? (lvlLeavesBefore d S inc t + j) = some v := by
  intro inc
  induction inc with
  | nil => intro vals S lev v code h; simp [codesAux] at h
  | cons i rest ih =>
    intro vals S lev v code h
    simp only [codesAux, List.mem_append] at h
    rcases h with h | h
    · simp only [List.mem_map] at h
      obtain ⟨⟨j, w⟩, hjw, heq⟩ := h
      obtain ⟨hw, hcode⟩ : w = v ∧ (⟨i + j, lev + 1⟩ : Code) = code :=
        ⟨congrArg Prod.fst heq, congrArg Prod.snd heq⟩
      subst hw
      rw [List.mk_mem_enum_iff_get?] at hjw
      have hjlt : j < S - i := by
        by_contra hK
        rw [List.get?_len_le (le_trans (List.length_take_le _ _) (Nat.le_of_not_lt hK))]
          at hjw
        cases hjw
      rw [List.get?_take hjlt] at hjw
      exact ⟨0, j, by simp, by rw [← hcode], by rw [← hcode]; rfl,
        by simpa [lvlSizeAt] using hjlt, by simpa [lvlLeavesBefore] using hjw⟩
    · obtain ⟨t, j, htl, hfrag, hbits, hjlt, hget⟩ := ih (vals.drop (S - i)) (d * i) (lev + 1) v code h
      refine ⟨t + 1, j, by simpa using Nat.succ_lt_succ htl,
        hfrag.trans (by omega), by simpa using hbits, ?_, ?_⟩
      · rw [lvlSizeAt_cons]
        simpa using hjlt
      · rw [lvlLeavesBefore_cons]
        rw [List.get?_drop] at hget
        have harith : (S - i) + (lvlLeavesBefore d (d * i) rest t + j)
            = S - i + lvlLeavesBefore d (d * i) rest t + j := by omega
        exact harith ▸ hget

/-- A well-formed coding has level sizes bounded by `d^(t+1)`. -/
theorem lvlSizeAt_le_pow (d : Nat) (inc : List Nat)
    (hwf : ∀ t < inc.length, inc.getD t 0 ≤ lvlSizeAt d d inc t) :
    ∀ t < inc.length, lvlSizeAt d d inc t ≤ d ^ (t + 1) := by
  intro t
  induction t with
  | zero => intro _; simpa [lvlSizeAt] using Nat.le_refl d
  | succ t ih =>
    intro h
    have h1 : inc.getD t 0 ≤ lvlSizeAt d d inc t := hwf t (by omega)
    have h2 := ih (by omega)
    calc lvlSizeAt d d inc (t + 1) = d * inc.getD t 0 := rfl
      _ ≤ d * d ^ (t + 1) := Nat.mul_le_mul_left _ (le_trans h1 h2)
      _ = d ^ (t + 2) := by ring

/-- Prefixes of an in-range codeword land on internal nodes: dividing the
codeword by `d^w` gives a value below the size of level `tC - w`, and for
`w ≥ 1` even below its internal-node count. -/
theorem codePrefixBound (d : Nat) (hd : 1 ≤ d) (inc : List Nat)
    (hwf : ∀ t < inc.length, inc.getD t 0 ≤ lvlSizeAt d d inc t)
    (tC : Nat) (htl : tC < inc.length) (B : Nat) (hB : B < lvlSizeAt d d inc tC) :
    ∀ w ≤ tC, B / d ^ w < lvlSizeAt d d inc (tC - w) ∧
      (1 ≤ w → B / d ^ w < inc.getD (tC - w) 0) := by
  intro w
  induction w with
  | zero => intro _; exact ⟨by simpa using hB, by omega⟩
  | succ w ih =>
    intro hw
    have hIH := (ih (by omega)).1
    have hsub : tC - w = (tC - (w + 1)) + 1 := by omega
    rw [hsub] at hIH
    have hIH' : B / d ^ w < d * inc.getD (tC - (w + 1)) 0 := hIH
    have h2 : B / d ^ (w + 1) < inc.getD (tC - (w + 1)) 0 := by
      rw [pow_succ, ← Nat.div_div_eq_div_mul]
      refine (Nat.div_lt_iff_lt_mul (by omega)).mpr ?_
      calc B / d ^ w < d * inc.getD (tC - (w + 1)) 0 := hIH'
        _ = inc.getD (tC - (w + 1)) 0 * d := by ring
    exact ⟨lt_of_lt_of_le h2 (hwf _ (by omega)), fun _ => h2⟩

/-- `consume` at an explicit state, internal-node branch. -/
theorem consume_internal {V : Type _} (c : Coding V) (sh fl ls lv f : Nat)
    (hlt : sh + f < c.internalNodesCount.getD lv 0) :
    consume c ⟨sh, fl, ls, lv⟩ f =
      (.Incomplete, ⟨c.degree * (sh + f), fl + (ls - c.internalNodesCount.getD lv 0),
        c.degree * c.internalNodesCount.getD lv 0, lv + 1⟩) := by
  rw [consume_spec]; exact if_pos hlt

/-- `consume` at an explicit state, in-range leaf branch. -/
theorem consume_leaf {V : Type _} (c : Coding V) (sh fl ls lv f : Nat) (v : V)
    (hge : c.internalNodesCount.getD lv 0 ≤ sh + f)
    (hget : c.values.get? (fl + (sh + f) - c.internalNodesCount.getD lv 0) = some v) :
    consume c ⟨sh, fl, ls, lv⟩ f = (.Value v, ⟨sh + f, fl, ls, lv⟩) := by
  rw [consume_spec, if_neg (Nat.not_lt.mpr hge)]
  show (match c.values.get? (fl + (sh + f) - c.internalNodesCount.getD lv 0) with
    | some v => ((DecodingResult.Value v : DecodingResult V), DecoderSt.mk (sh + f) fl ls lv)
    | none => (.Invalid, ⟨sh + f, fl, ls, lv⟩)) = _
  rw [hget]

/-- The digits of the codeword that remain after `t` of `tC + 1` fragments
have been consumed. -/
def digitsSegment (d B tC t : Nat) : List Nat :=
  (List.range (tC + 1 - t)).map (fun u => B / d ^ (tC - (t + u)) % d)

theorem digitsSegment_zero (d B tC : Nat) :
    digitsSegment d B tC 0 = digitsBase d B (tC + 1) := by
  simp [digitsSegment, digitsBase]

theorem digitsSegment_cons (d B tC t : Nat) (h : t ≤ tC) :
    digitsSegment d B tC t = (B / d ^ (tC - t) % d) :: digitsSegment d B tC (t + 1) := by
  have h1 : tC + 1 - t = (tC + 1 - (t + 1)) + 1 := by omega
  rw [digitsSegment, h1, List.range_succ_eq_map]
  simp only [List.map_cons, List.map_map]
  refine congrArg₂ List.cons ?_ ?_
  · rw [Nat.add_zero]
  · refine List.map_congr_left fun u _ => ?_
    show B / d ^ (tC - (t + (u + 1))) % d = B / d ^ (tC - (t + 1 + u)) % d
    have h2 : t + (u + 1) = t + 1 + u := by omega
    rw [h2]

/-- Running the decoder from the canonical state reached after `t` of
`tC + 1` fragments of an in-range codeword have been consumed: each step but
the last answers `Incomplete`, the last answers the codeword's value. -/
theorem decoderRun {V : Type _} (c : Coding V) (hd : 1 ≤ c.degree)
    (hwf : ∀ t < c.internalNodesCount.length,
      c.internalNodesCount.getD t 0
        ≤ lvlSizeAt c.degree c.degree c.internalNodesCount t)
    (tC j : Nat) (v : V) (htl : tC < c.internalNodesCount.length)
    (hjlt : j < lvlSizeAt c.degree c.degree c.internalNodesCount tC
      - c.internalNodesCount.getD tC 0)
    (hget : c.values.get?
      (lvlLeavesBefore c.degree c.degree c.internalNodesCount tC + j) = some v) :
    ∀ k t, t + k = tC →
      consumeSeq c
        ⟨c.degree * ((c.internalNodesCount.getD tC 0 + j) / c.degree ^ (tC + 1 - t)),
          lvlLeavesBefore c.degree c.degree c.internalNodesCount t,
          lvlSizeAt c.degree c.degree c.internalNodesCount t, t⟩
        (digitsSegment c.degree (c.internalNodesCount.getD tC 0 + j) tC t) =
      List.replicate k DecodingResult.Incomplete ++ [DecodingResult.Value v] := by
  intro k
  induction k with
  | zero =>
    intro t ht
    have htt : t = tC := by omega
    subst htt
    rw [digitsSegment_cons c.degree _ t t (le_refl _)]
    have htail : digitsSegment c.degree (c.internalNodesCount.getD t 0 + j) t (t + 1) = [] := by
      simp [digitsSegment]
    rw [htail, Nat.sub_self, pow_zero, Nat.div_one]
    have hp1 : t + 1 - t = 1 := by omega
    rw [hp1, pow_one]
    have hsum : c.degree * ((c.internalNodesCount.getD t 0 + j) / c.degree)
        + (c.internalNodesCount.getD t 0 + j) % c.degree
        = c.internalNodesCount.getD t 0 + j := Nat.div_add_mod _ _
    have hge : c.internalNodesCount.getD t 0
        ≤ c.degree * ((c.internalNodesCount.getD t 0 + j) / c.degree)
          + (c.internalNodesCount.getD t 0 + j) % c.degree := by omega
    have hidx : lvlLeavesBefore c.degree c.degree c.internalNodesCount t
          + (c.degree * ((c.internalNodesCount.getD t 0 + j) / c.degree)
            + (c.internalNodesCount.getD t 0 + j) % c.degree)
          - c.internalNodesCount.getD t 0
        = lvlLeavesBefore c.degree c.degree c.internalNodesCount t + j := by omega
    show (consume c _ _).1 :: consumeSeq c (consume c _ _).2 [] = _
    rw [consume_leaf c _ _ _ _ _ v hge (by rw [hidx]; exact hget)]
    rfl
  | succ k ih =>
    intro t ht
    have htlt : t < tC := by omega
    rw [digitsSegment_cons c.degree _ tC t (by omega)]
    have hxd : (c.internalNodesCount.getD tC 0 + j) / c.degree ^ (tC + 1 - t)
        = (c.internalNodesCount.getD tC 0 + j) / c.degree ^ (tC - t) / c.degree := by
      have h1 : tC + 1 - t = (tC - t) + 1 := by omega
      rw [h1, pow_succ, ← Nat.div_div_eq_div_mul]
    have hBlt : c.internalNodesCount.getD tC 0 + j
        < lvlSizeAt c.degree c.degree c.internalNodesCount tC := by
      have := hwf tC htl; omega
    have hpref : (c.internalNodesCount.getD tC 0 + j) / c.degree ^ (tC - t)
        < c.internalNodesCount.getD t 0 := by
      have h := (codePrefixBound c.degree hd c.internalNodesCount hwf tC htl _ hBlt
        (tC - t) (by omega)).2 (by omega)
      have h2 : tC - (tC - t) = t := by omega
      rwa [h2] at h
    have hsum : c.degree * ((c.internalNodesCount.getD tC 0 + j) / c.degree ^ (tC + 1 - t))
          + (c.internalNodesCount.getD tC 0 + j) / c.degree ^ (tC - t) % c.degree
        = (c.internalNodesCount.getD tC 0 + j) / c.degree ^ (tC - t) := by
      rw [hxd]; exact Nat.div_add_mod _ _
    have hstep : consume c
        ⟨c.degree * ((c.internalNodesCount.getD tC 0 + j) / c.degree ^ (tC + 1 - t)),
          lvlLeavesBefore c.degree c.degree c.internalNodesCount t,
          lvlSizeAt c.degree c.degree c.internalNodesCount t, t⟩
        ((c.internalNodesCount.getD tC 0 + j) / c.degree ^ (tC - t) % c.degree)
        = (.Incomplete,
          ⟨c.degree * ((c.internalNodesCount.getD tC 0 + j) / c.degree ^ (tC + 1 - (t + 1))),
            lvlLeavesBefore c.degree c.degree c.internalNodesCount (t + 1),
            lvlSizeAt c.degree c.degree c.internalNodesCount (t + 1), t + 1⟩) := by
      rw [consume_internal c _ _ _ _ _ (by rw [hsum]; exact hpref)]
      have h3 : tC + 1 - (t + 1) = tC - t := by omega
      rw [hsum, h3]
      rfl
    show (consume c _ _).1 :: consumeSeq c (consume c _ _).2 _ = _
    rw [hstep]
    show DecodingResult.Incomplete :: consumeSeq c _ _ = _
    rw [ih (t + 1) (by omega), List.replicate_succ, List.cons_append]

/-- C3 (confirmed): for a structurally well-formed coding (positive degree,
each level's internal-node count bounded by the level size — invariants of
every coding the library builds), every `(value, code)` pair yielded by
`codes()` decodes through a fresh decoder with `fragments - 1` answers of
`Incomplete` followed by `Value v` on the final fragment. -/
theorem c3_codes_decoder_roundtrip {V : Type _} (c : Coding V) (hd : 1 ≤ c.degree)
    (hwf : ∀ t < c.internalNodesCount.length,
      c.internalNodesCount.getD t 0 ≤ lvlSizeAt c.degree c.degree c.internalNodesCount t) :
    ∀ p ∈ codesList c,
      consumeSeq c (newDecoder c) (digitsBase c.degree p.2.bits p.2.fragments) =
        List.replicate (p.2.fragments - 1) DecodingResult.Incomplete
          ++ [DecodingResult.Value p.1] := by
  rintro ⟨v, code⟩ hp
  obtain ⟨t, j, htl, hfrag, hbits, hjlt, hget⟩ :=
    codesAux_mem c.degree c.internalNodesCount c.values c.degree 0 v code hp
  have hrun := decoderRun c hd hwf t j v htl hjlt hget t 0 (by omega)
  have hBpow : c.internalNodesCount.getD t 0 + j < c.degree ^ (t + 1) := by
    have h1 := lvlSizeAt_le_pow c.degree c.internalNodesCount hwf t htl
    have h2 := hwf t htl
    omega
  rw [digitsSegment_zero] at hrun
  have hz : (c.internalNodesCount.getD t 0 + j) / c.degree ^ (t + 1 - 0) = 0 :=
    Nat.div_eq_of_lt (by simpa using hBpow)
  rw [hz, Nat.mul_zero] at hrun
  have hnw : (⟨0, lvlLeavesBefore c.degree c.degree c.internalNodesCount 0,
      lvlSizeAt c.degree c.degree c.internalNodesCount 0, 0⟩ : DecoderSt) = newDecoder c := rfl
  rw [hnw] at hrun
  rw [hbits, hfrag]
  have hf1 : 0 + t + 1 - 1 = t := by omega
  have hf2 : (0 : Nat) + t + 1 = t + 1 := by omega
  rw [hf1, hf2]
  exact hrun

/-- C3 witness: the round-trip theorem applied to the repository's 6-symbol
binary test coding at the code of value `0` (codeword `0b01`, 2 fragments). -/
theorem c3_witness :
    consumeSeq (⟨[0, 1, 2, 3, 4, 5], [2, 1, 1, 0], 2⟩ : Coding Nat)
        (newDecoder (⟨[0, 1, 2, 3, 4, 5], [2, 1, 1, 0], 2⟩ : Coding Nat))
        (digitsBase 2 1 2)
      = [DecodingResult.Incomplete, DecodingResult.Value 0] := by
  have h := c3_codes_decoder_roundtrip (⟨[0, 1, 2, 3, 4, 5], [2, 1, 1, 0], 2⟩ : Coding Nat)
    (by decide) (by decide) (0, ⟨1, 2⟩) (by decide)
  simpa using h

/-!
### Claim C2 — invariants of `from_sorted`
-/

theorem getD_set_self {α : Type _} (l : List α) (i : Nat) (a dflt : α) (h : i < l.length) :
    (l.set i a).getD i dflt = a := by
  rw [List.getD_eq_getElem?_getD, List.getElem?_set_self]
  · rfl
  · simpa using h

theorem getD_set_other {α : Type _} (l : List α) {i j : Nat} (a dflt : α) (h : i ≠ j) :
    (l.set i a).getD j dflt = l.getD j dflt := by
  rw [List.getD_eq_getElem?_getD, List.getElem?_set_ne h, ← List.getD_eq_getElem?_getD]

theorem sum_set_succ (l : List Nat) : ∀ i, i < l.length →
    (l.set i (l.getD i 0 + 1)).sum = l.sum + 1 := by
  induction l with
  | nil => intro i h; simp at h
  | cons a tl ih =>
    intro i h
    cases i with
    | zero => simp [List.getD_cons_zero]; omega
    | succ i =>
      have h2 : i < tl.length := by simpa using h
      simp only [List.getD_cons_succ, List.set_cons_succ, List.sum_cons, ih i h2]
      omega

/-- Core counting identity of the merging pass: with
`c₁ = fsC1 n d` and `m = fsM n d`, the total number of items consumed is
`c₁ + (m-1)·d = n + m - 1`; equivalently `c₁ + (m-1)·(d-1) = n`. -/
theorem mergeArith (n d : Nat) (hd : 2 ≤ d) (hn : d < n) :
    fsC1 n d + (fsM n d - 1) * (d - 1) = n ∧
    2 ≤ fsM n d ∧ fsM n d ≤ n - 1 ∧ 2 ≤ fsC1 n d ∧ fsC1 n d ≤ d := by
  have hr : 1 ≤ d - 1 := by omega
  have hqs : (n - 1) / (d - 1) * (d - 1) + (n - 1) % (d - 1) = n - 1 := by
    rw [Nat.mul_comm]; exact Nat.div_add_mod (n - 1) (d - 1)
  have hs : (n - 1) % (d - 1) < d - 1 := Nat.mod_lt _ (by omega)
  have hsuccmul : ((n - 1) / (d - 1) + 1) * (d - 1)
      = (n - 1) / (d - 1) * (d - 1) + (d - 1) := by rw [Nat.succ_mul]
  have hq1 : 1 ≤ (n - 1) / (d - 1) := by
    by_contra hK
    have hq0 : (n - 1) / (d - 1) = 0 := Nat.lt_one_iff.mp (Nat.not_le.mp hK)
    rw [hq0, Nat.zero_mul] at hqs
    omega
  have hM : fsM n d = if (n - 1) % (d - 1) = 0 then (n - 1) / (d - 1)
      else (n - 1) / (d - 1) + 1 := by
    by_cases h0 : (n - 1) % (d - 1) = 0
    · have he : n + (d - 1) - 2 = (d - 1 - 1) + ((n - 1) / (d - 1)) * (d - 1) := by omega
      rw [fsM, he, Nat.add_mul_div_right _ _ (by omega : 0 < d - 1),
        Nat.div_eq_of_lt (by omega), if_pos h0, Nat.zero_add]
    · have he : n + (d - 1) - 2
          = ((n - 1) % (d - 1) - 1) + ((n - 1) / (d - 1) + 1) * (d - 1) := by
        rw [hsuccmul]; omega
      rw [fsM, he, Nat.add_mul_div_right _ _ (by omega : 0 < d - 1),
        Nat.div_eq_of_lt (by omega), if_neg h0, Nat.zero_add]
  have hq3 : (n - 1) / (d - 1) ≤ (n - 1) / (d - 1) * (d - 1) :=
    Nat.le_mul_of_pos_right _ (by omega)
  rw [fsC1, hM]
  by_cases h0 : (n - 1) % (d - 1) = 0
  · rw [if_pos h0, if_pos h0]
    have hq2 : 2 ≤ (n - 1) / (d - 1) := by
      by_contra hK
      have hq11 : (n - 1) / (d - 1) = 1 := by omega
      rw [hq11, Nat.one_mul] at hqs
      omega
    have hmul : ((n - 1) / (d - 1) - 1) * (d - 1)
        = (n - 1) / (d - 1) * (d - 1) - (d - 1) := by
      rw [Nat.sub_one_mul]
    have hle : d - 1 ≤ (n - 1) / (d - 1) * (d - 1) :=
      Nat.le_mul_of_pos_left _ (by omega)
    omega
  · rw [if_neg h0, if_neg h0]
    have hmul : ((n - 1) / (d - 1) + 1 - 1) * (d - 1) = (n - 1) / (d - 1) * (d - 1) := by
      simp
    omega

/-- Total number of items consumed by merges `0, …, t-1` (the first merge
consumes `c₁` items, every later one `d`). -/
def consumedCount (c₁ d t : Nat) : Nat := if t = 0 then 0 else c₁ + (t - 1) * d

theorem consumedCount_zero (c₁ d : Nat) : consumedCount c₁ d 0 = 0 := rfl

theorem consumedCount_succ (c₁ d t : Nat) : consumedCount c₁ d (t + 1) = c₁ + t * d := rfl

/-- Invariant of the merging pass after `t` complete merges: the cursor sum
counts the consumed items, `internals_begin ≤ t - 1`, and every consumed
internal node `i` holds a parent pointer in `(i, t - 1]`. -/
def MergeInv (n c₁ d t : Nat) (s : MergeSt) : Prop :=
  s.freq.length = n ∧
  s.ib + s.lb = consumedCount c₁ d t ∧
  s.lb ≤ n ∧
  s.ib ≤ t - 1 ∧
  ∀ i < s.ib, i < s.freq.getD i 0 ∧ s.freq.getD i 0 ≤ t - 1

/-- Invariant inside merge `t`, after the first item and `q` further items. -/
def MergeInnerInv (n c₁ d t q : Nat) (s : MergeSt) : Prop :=
  s.freq.length = n ∧
  s.ib + s.lb = consumedCount c₁ d t + 1 + q ∧
  s.lb ≤ n ∧
  s.ib ≤ t ∧
  (∀ i < s.ib, i < s.freq.getD i 0 ∧ s.freq.getD i 0 ≤ t) ∧
  (t = 0 → s.ib = 0 ∧ s.lb = 1 + q)

theorem mergeFirst_inv (n c₁ d m t : Nat) (s : MergeSt)
    (hd : 2 ≤ d) (hn : d < n) (hmn : m ≤ n - 1) (ht : t < m)
    (hinv : MergeInv n c₁ d t s) :
    MergeInnerInv n c₁ d t 0 (mergeFirst n t s) := by
  obtain ⟨hlen, hcnt, hlb, hib, hptr⟩ := hinv
  by_cases hsel : selectFirst s.freq n s.ib s.lb = true
  · have ht1 : 1 ≤ t := by
      by_contra hK
      have ht0 : t = 0 := by omega
      subst ht0
      rw [consumedCount_zero] at hcnt
      have hib0 : s.ib = 0 := by omega
      have hlb0 : s.lb = 0 := by omega
      rw [selectFirst, hib0, hlb0] at hsel
      simp only [Bool.or_eq_true, decide_eq_true_eq] at hsel
      rcases hsel with h | h
      · omega
      · exact absurd h (lt_irrefl _)
    have hiblt : s.ib < t := by omega
    rw [mergeFirst, if_pos hsel]
    refine ⟨by simp [hlen], by simp only; omega, hlb, by simp only; omega, ?_, by omega⟩
    intro i hi
    simp only at hi
    rcases Nat.lt_or_ge i s.ib with h | h
    · rw [getD_set_other _ _ _ (by omega : s.ib ≠ i),
        getD_set_other _ _ _ (by omega : t ≠ i)]
      obtain ⟨h1, h2⟩ := hptr i h
      exact ⟨h1, by omega⟩
    · have hieq : i = s.ib := by omega
      subst hieq
      rw [getD_set_self _ _ _ _ (by simp [hlen]; omega)]
      exact ⟨hiblt, by omega⟩
  · rw [mergeFirst, if_neg hsel]
    have hlbn : s.lb < n := by
      by_contra hK
      exact hsel (by
        rw [selectFirst]
        simp only [Bool.or_eq_true, decide_eq_true_eq]
        exact Or.inl (Nat.le_of_not_lt hK))
    refine ⟨by simp [hlen], by simp only; omega, by simp only; omega,
      by simp only; omega, ?_, ?_⟩
    · intro i hi
      simp only at hi
      rw [getD_set_other _ _ _ (by omega : t ≠ i)]
      obtain ⟨h1, h2⟩ := hptr i hi
      exact ⟨h1, by omega⟩
    · intro ht0
      subst ht0
      rw [consumedCount_zero] at hcnt
      exact ⟨by simp only; omega, by simp only; omega⟩

theorem mergeAdd_inv (n c₁ d m t q : Nat) (s : MergeSt)
    (hd : 2 ≤ d) (hn : d < n) (hc₁lo : 2 ≤ c₁) (hc₁hi : c₁ ≤ d)
    (hmn : m ≤ n - 1) (hkey : c₁ + (m - 1) * (d - 1) = n)
    (ht : t < m) (hq : q + 2 ≤ if t = 0 then c₁ else d)
    (hinv : MergeInnerInv n c₁ d t q s) :
    MergeInnerInv n c₁ d t (q + 1) (mergeAdd n t s) := by
  obtain ⟨hlen, hcnt, hlb, hib, hptr, ht0⟩ := hinv
  by_cases hsel : selectNext s.freq n s.ib s.lb t = true
  · have ht1 : 1 ≤ t := by
      by_contra hK
      have ht0' : t = 0 := by omega
      subst ht0'
      obtain ⟨hib0, hlb0⟩ := ht0 rfl
      rw [selectNext, hib0] at hsel
      simp only [Bool.or_eq_true, Bool.and_eq_true, decide_eq_true_eq] at hsel
      rcases hsel with h | h
      · rw [if_pos rfl] at hq
        omega
      · exact absurd h.1 (lt_irrefl _)
    have hqd : q + 2 ≤ d := by rw [if_neg (by omega)] at hq; exact hq
    have hibt : s.ib < t := by
      by_contra hK
      have hibeq : s.ib = t := by omega
      have hnlb : n ≤ s.lb := by
        rw [selectNext, hibeq] at hsel
        simp only [Bool.or_eq_true, Bool.and_eq_true, decide_eq_true_eq] at hsel
        rcases hsel with h | h
        · exact h
        · exact absurd h.1 (lt_irrefl _)
      rw [consumedCount, if_neg (by omega)] at hcnt
      have hd1 : d = (d - 1) + 1 := by omega
      have hmul1 : (t - 1) * d = (t - 1) * (d - 1) + (t - 1) := by
        calc (t - 1) * d = (t - 1) * ((d - 1) + 1) := by rw [← hd1]
          _ = (t - 1) * (d - 1) + (t - 1) := Nat.mul_succ _ _
      have hmul3 : (t - 1) * (d - 1) ≤ (m - 2) * (d - 1) :=
        Nat.mul_le_mul_right _ (by omega)
      have hmul4 : (m - 2) * (d - 1) + (d - 1) = (m - 1) * (d - 1) := by
        have h2 : m - 1 = (m - 2) + 1 := by omega
        rw [h2, Nat.succ_mul]
      omega
    rw [mergeAdd, if_pos hsel]
    refine ⟨by simp [hlen], by simp only; omega, hlb, by simp only; omega, ?_, by omega⟩
    intro i hi
    simp only at hi
    rcases Nat.lt_or_ge i s.ib with h | h
    · rw [getD_set_other _ _ _ (by omega : s.ib ≠ i),
        getD_set_other _ _ _ (by omega : t ≠ i)]
      obtain ⟨h1, h2⟩ := hptr i h
      exact ⟨h1, h2⟩
    · have hieq : i = s.ib := by omega
      subst hieq
      rw [getD_set_self _ _ _ _ (by simp [hlen]; omega)]
      exact ⟨hibt, le_refl _⟩
  · rw [mergeAdd, if_neg hsel]
    have hlbn : s.lb < n := by
      by_contra hK
      exact hsel (by
        rw [selectNext]
        simp only [Bool.or_eq_true, decide_eq_true_eq]
        exact Or.inl (Nat.le_of_not_lt hK))
    refine ⟨by simp [hlen], by simp only; omega, by simp only; omega, hib, ?_, ?_⟩
    · intro i hi
      simp only at hi
      rw [getD_set_other _ _ _ (by omega : t ≠ i)]
      exact hptr i hi
    · intro ht0'
      obtain ⟨hib0, hlb0⟩ := ht0 ht0'
      exact ⟨hib0, by simp only; omega⟩

theorem mergeStep_inv (n c₁ d m t : Nat) (s : MergeSt)
    (hd : 2 ≤ d) (hn : d < n) (hc₁lo : 2 ≤ c₁) (hc₁hi : c₁ ≤ d)
    (hmn : m ≤ n - 1) (hkey : c₁ + (m - 1) * (d - 1) = n)
    (ht : t < m) (hinv : MergeInv n c₁ d t s) :
    MergeInv n c₁ d (t + 1) (mergeStep n (if t = 0 then c₁ else d) t s) := by
  have hct2 : 2 ≤ if t = 0 then c₁ else d := by
    by_cases h : t = 0
    · rw [if_pos h]; exact hc₁lo
    · rw [if_neg h]; exact hd
  have hinner : ∀ q, q ≤ (if t = 0 then c₁ else d) - 1 →
      MergeInnerInv n c₁ d t q ((mergeAdd n t)^[q] (mergeFirst n t s)) := by
    intro q
    induction q with
    | zero => intro _; exact mergeFirst_inv n c₁ d m t s hd hn hmn ht hinv
    | succ q ih =>
      intro hq
      rw [Function.iterate_succ_apply']
      exact mergeAdd_inv n c₁ d m t q _ hd hn hc₁lo hc₁hi hmn hkey ht
        (by omega) (ih (by omega))
  obtain ⟨hlen, hcnt, hlb, hib, hptr, _⟩ :=
    hinner ((if t = 0 then c₁ else d) - 1) (le_refl _)
  have hms : mergeStep n (if t = 0 then c₁ else d) t s
      = (mergeAdd n t)^[(if t = 0 then c₁ else d) - 1] (mergeFirst n t s) := rfl
  rw [hms]
  refine ⟨hlen, ?_, hlb, by omega, ?_⟩
  · have h1 : consumedCount c₁ d t + 1 + ((if t = 0 then c₁ else d) - 1)
        = consumedCount c₁ d (t + 1) := by
      by_cases ht0 : t = 0
      · subst ht0
        rw [if_pos rfl, consumedCount_zero, consumedCount_succ, Nat.zero_mul]
        omega
      · rw [if_neg ht0, consumedCount_succ, consumedCount, if_neg ht0]
        have h2 : t = (t - 1) + 1 := by omega
        have hmm : t * d = (t - 1) * d + d := by
          calc t * d = ((t - 1) + 1) * d := by rw [← h2]
            _ = (t - 1) * d + d := Nat.succ_mul _ _
        omega
    omega
  · intro i hi
    obtain ⟨h1, h2⟩ := hptr i hi
    exact ⟨h1, by omega⟩

theorem mergeLoop_inv (n c₁ d m : Nat) (freq₀ : List Nat)
    (hlen : freq₀.length = n)
    (hd : 2 ≤ d) (hn : d < n) (hc₁lo : 2 ≤ c₁) (hc₁hi : c₁ ≤ d)
    (hmn : m ≤ n - 1) (hkey : c₁ + (m - 1) * (d - 1) = n) :
    MergeInv n c₁ d m (mergeLoop n d c₁ m freq₀) := by
  suffices h : ∀ t, t ≤ m → MergeInv n c₁ d t
      (natFold (fun next s => mergeStep n (if next = 0 then c₁ else d) next s) t
        ⟨freq₀, 0, 0⟩) from h m (le_refl _)
  intro t
  induction t with
  | zero =>
    intro _
    show MergeInv n c₁ d 0 ⟨freq₀, 0, 0⟩
    exact ⟨hlen, rfl, Nat.zero_le n, Nat.zero_le _,
      fun i hi => absurd hi (Nat.not_lt_zero i)⟩
  | succ t ih =>
    intro ht
    exact mergeStep_inv n c₁ d m t _ hd hn hc₁lo hc₁hi hmn hkey (by omega) (ih (by omega))

/-- After the full merging pass of `from_sorted` (in the nontrivial case
`d < n`): all `m - 1` non-root internal nodes have been consumed, and each
holds a parent pointer strictly greater than its own index, at most `m - 1`. -/
theorem mergeLoop_final (n d : Nat) (freq₀ : List Nat)
    (hd : 2 ≤ d) (hn : d < n) (hlen : freq₀.length = n) :
    (mergeLoop n d (fsC1 n d) (fsM n d) freq₀).freq.length = n ∧
    (mergeLoop n d (fsC1 n d) (fsM n d) freq₀).ib = fsM n d - 1 ∧
    ∀ i < fsM n d - 1,
      i < (mergeLoop n d (fsC1 n d) (fsM n d) freq₀).freq.getD i 0 ∧
      (mergeLoop n d (fsC1 n d) (fsM n d) freq₀).freq.getD i 0 ≤ fsM n d - 1 := by
  obtain ⟨hkey, hm2, hmn, hc₁lo, hc₁hi⟩ := mergeArith n d hd hn
  obtain ⟨hl, hcnt, hlb, hib, hptr⟩ :=
    mergeLoop_inv n (fsC1 n d) d (fsM n d) freq₀ hlen hd hn hc₁lo hc₁hi hmn hkey
  rw [consumedCount, if_neg (by omega)] at hcnt
  have hd1 : d = (d - 1) + 1 := by omega
  have hmul : (fsM n d - 1) * d = (fsM n d - 1) * (d - 1) + (fsM n d - 1) := by
    calc (fsM n d - 1) * d = (fsM n d - 1) * ((d - 1) + 1) := by rw [← hd1]
      _ = (fsM n d - 1) * (d - 1) + (fsM n d - 1) := Nat.mul_succ _ _
  have hibe : (mergeLoop n d (fsC1 n d) (fsM n d) freq₀).ib = fsM n d - 1 := by omega
  exact ⟨hl, hibe, fun i hi => hptr i (by omega)⟩

/-- The right-to-left depth-propagation pass.  If every position below `t`
holds a parent pointer in `(i, mm]`, position `mm` holds the root depth `0`,
and the positions in `[t, mm)` already hold final depths bounded by
`mm - j`, then after the pass every position below `mm` holds a depth in
`[1, mm - j]` and the root keeps `0`. -/
theorem depthLoop_spec (n mm : Nat) :
    ∀ (t : Nat) (g : List Nat), t ≤ mm → g.length = n → mm < n →
      g.getD mm 0 = 0 →
      (∀ i < t, i < g.getD i 0 ∧ g.getD i 0 ≤ mm) →
      (∀ j, t ≤ j → j < mm → 1 ≤ g.getD j 0 ∧ g.getD j 0 ≤ mm - j) →
      (depthLoop g t).length = n ∧
      (depthLoop g t).getD mm 0 = 0 ∧
      (∀ j < mm, 1 ≤ (depthLoop g t).getD j 0 ∧ (depthLoop g t).getD j 0 ≤ mm - j) := by
  intro t
  induction t with
  | zero =>
    intro g _ hlen hmn hroot _ hdep
    exact ⟨hlen, hroot, fun j hj => hdep j (Nat.zero_le _) hj⟩
  | succ t ih =>
    intro g ht hlen hmn hroot hptr hdep
    show (depthLoop (depthAt g t) t).length = n ∧ _ ∧ _
    obtain ⟨hpt1, hpt2⟩ := hptr t (Nat.lt_succ_self t)
    have htn : t < n := by omega
    have hval : 1 ≤ (depthAt g t).getD t 0 ∧ (depthAt g t).getD t 0 ≤ mm - t := by
      rw [depthAt, getD_set_self _ _ _ _ (by omega)]
      by_cases hp : g.getD t 0 = mm
      · rw [hp, hroot]; omega
      · have h5 := hdep (g.getD t 0) (by omega) (by omega)
        omega
    refine ih (depthAt g t) (by omega) (by simp [depthAt, hlen]) hmn ?_ ?_ ?_
    · rw [depthAt, getD_set_other _ _ _ (by omega : t ≠ mm)]
      exact hroot
    · intro i hi
      rw [depthAt, getD_set_other _ _ _ (by omega : t ≠ i)]
      exact hptr i (by omega)
    · intro j hjt hjm
      by_cases hjt2 : j = t
      · subst hjt2; exact hval
      · rw [depthAt, getD_set_other _ _ _ (by omega : t ≠ j)]
        exact hdep j (by omega) hjm

theorem maxDepth_ge (fr : List Nat) : ∀ m, ∀ i < m, fr.getD i 0 % 2 ^ 8 ≤ maxDepth fr m := by
  intro m
  induction m with
  | zero => intro i h; exact absurd h (Nat.not_lt_zero i)
  | succ m ih =>
    intro i hi
    show _ ≤ max (maxDepth fr m) (fr.getD m 0 % 2 ^ 8)
    rcases Nat.lt_or_ge i m with h | h
    · exact le_trans (ih i h) (le_max_left _ _)
    · have hieq : i = m := by omega
      subst hieq
      exact le_max_right _ _

theorem countsLoop_length (fr init : List Nat) :
    ∀ m, (countsLoop fr m init).length = init.length := by
  intro m
  induction m with
  | zero => rfl
  | succ m ih =>
    show ((countsLoop fr m init).set _ _).length = _
    rw [List.length_set, ih]

theorem countsLoop_sum (fr init : List Nat) :
    ∀ m, (∀ i < m, fr.getD i 0 - 1 < init.length) →
      (countsLoop fr m init).sum = init.sum + m := by
  intro m
  induction m with
  | zero => intro _; rfl
  | succ m ih =>
    intro h
    show ((countsLoop fr m init).set (fr.getD m 0 - 1)
        ((countsLoop fr m init).getD (fr.getD m 0 - 1) 0 + 1)).sum = init.sum + (m + 1)
    rw [sum_set_succ _ _ (by rw [countsLoop_length]; exact h m (Nat.lt_succ_self m)),
      ih (fun i hi => h i (by omega))]
    omega

theorem countsLoop_getD (fr init : List Nat) (k : Nat) :
    ∀ m, (∀ i < m, fr.getD i 0 - 1 ≠ k) →
      (countsLoop fr m init).getD k 0 = init.getD k 0 := by
  intro m
  induction m with
  | zero => intro _; rfl
  | succ m ih =>
    intro h
    show ((countsLoop fr m init).set (fr.getD m 0 - 1) _).getD k 0 = _
    rw [getD_set_other _ _ _ (h m (Nat.lt_succ_self m)), ih (fun i hi => h i (by omega))]

/-- The level-by-level "leaf count" sum of the claim: over the levels `k` of
`internal_nodes_count`, the integer `d·I_{k-1} - I_k` with `I_{-1} = 1`. -/
def leafSumAux (d prev : Int) : List Nat → Int
  | [] => 0
  | i :: rest => (d * prev - (i : Int)) + leafSumAux d (i : Int) rest

/-- `Σ_k (d · I_{k-1} - I_k)` with `I_{-1} = 1`, over all entries of
`internal_nodes_count`. -/
def leafSumZ (d : Nat) (inc : List Nat) : Int := leafSumAux (d : Int) 1 inc

theorem leafSumAux_eq (d : Int) :
    ∀ (inc : List Nat) (p : Int), 1 ≤ inc.length →
      leafSumAux d p inc
        = d * p + (d - 1) * (inc.sum : Int) - d * (inc.getD (inc.length - 1) 0 : Int) := by
  intro inc
  induction inc with
  | nil => intro p h; simp at h
  | cons i rest ih =>
    intro p _
    rcases rest with _ | ⟨i2, rest2⟩
    · show d * p - (i : Int) + 0 = _
      simp [List.getD_cons_zero]
      ring
    · have h2 : 1 ≤ (i2 :: rest2).length := by simp
      show d * p - (i : Int) + leafSumAux d (i : Int) (i2 :: rest2) = _
      rw [ih (i : Int) h2]
      have hgd : (i :: i2 :: rest2).getD ((i :: i2 :: rest2).length - 1) 0
          = (i2 :: rest2).getD ((i2 :: rest2).length - 1) 0 := by
        show (i :: i2 :: rest2).getD ((i2 :: rest2).length - 1 + 1) 0 = _
        rw [List.getD_cons_succ]
      rw [hgd]
      have hsum : ((i :: i2 :: rest2).sum : Int) = (i : Int) + ((i2 :: rest2).sum : Int) := by
        push_cast [List.sum_cons]
        ring
      rw [hsum]
      ring

/-- C2 counterexample.  The claim `Σ_k (d·I_{k-1} - I_k) = n` fails on the
code: `from_sorted` on the single frequency `[5]` with `d = 2` yields
`internal_nodes_count = [0]` and sum `2 ≠ 1`; on the non-descending
frequencies `[1, 1, 1, 1]` with `d = 3` it yields `[1, 0]` and sum `5 ≠ 4`
(the terminal level of a `d`-ary tree has unused child slots whenever
`(d-1)` does not divide `(n-1)`). -/
theorem c2_counterexample :
    leafSumZ 2 ((fromSorted 2 ([0] : List Nat) [5]).internalNodesCount) = 2 ∧
    (2 : Int) ≠ (1 : Int) ∧
    leafSumZ 3 ((fromSorted 3 ([3, 2, 1, 0] : List Nat) [1, 1, 1, 1]).internalNodesCount) = 5 ∧
    (5 : Int) ≠ (4 : Int) := by decide

/-- C2 (amended): for every coding built by `from_sorted` from a non-empty
non-descending frequency list (of length `n ≤ 257`, so that depths fit the
source's `u8` max-depth tracking) and degree `d ≥ 2`:
`Σ_k (d·I_{k-1} - I_k) = d` when `n ≤ d`, and
`= 1 + (d-1)·⌈(n-1)/(d-1)⌉` when `n > d` — equal to `n` exactly when
`(d-1) ∣ (n-1)` (always for `d = 2` with `n ≥ 2`); the last entry of
`internal_nodes_count` is `0`; and `values` is the input value list
reversed, i.e. ordered by non-increasing frequency. -/
theorem c2_from_sorted_invariants_amended {V : Type _} (d : Nat) (values : List V)
    (freq : List Nat) (hd : 2 ≤ d) (hne : 1 ≤ freq.length) (hbound : freq.length ≤ 257)
    (hsort : freq.Sorted (· ≤ ·)) :
    (fromSorted d values freq).values = values.reverse ∧
    (fromSorted d values freq).internalNodesCount.getLast? = some 0 ∧
    leafSumZ d (fromSorted d values freq).internalNodesCount =
      (if freq.length ≤ d then (d : Int)
       else 1 + ((d : Int) - 1) * (fsM freq.length d : Int)) ∧
    ((d - 1) ∣ (freq.length - 1) → d < freq.length →
      leafSumZ d (fromSorted d values freq).internalNodesCount = (freq.length : Int)) := by
  by_cases hnd : freq.length ≤ d
  · have hfs : fromSorted d values freq = ⟨values.reverse, [0], d⟩ := by
      simp only [fromSorted]
      rw [if_pos hnd]
    rw [hfs, if_pos hnd]
    refine ⟨rfl, rfl, ?_, ?_⟩
    · show (d : Int) * 1 - ((0 : Nat) : Int) + 0 = (d : Int)
      push_cast
      ring
    · intro _ hlt
      exact absurd hlt (by omega)
  · have hdn : d < freq.length := by omega
    have hfs : fromSorted d values freq = ⟨values.reverse,
        countsLoop (fsDepths freq.length d freq) (fsM freq.length d - 1)
          (List.replicate
            (maxDepth (fsDepths freq.length d freq) (fsM freq.length d - 1) + 1) 0), d⟩ := by
      simp only [fromSorted]
      rw [if_neg hnd]
    obtain ⟨hkey, hm2, hmn, hc1lo, hc1hi⟩ := mergeArith freq.length d hd hdn
    obtain ⟨hl, hib, hptr⟩ := mergeLoop_final freq.length d freq hd hdn rfl
    have hmmn : fsM freq.length d - 1 < freq.length := by omega
    have hfd : fsDepths freq.length d freq
        = depthLoop ((mergeLoop freq.length d (fsC1 freq.length d) (fsM freq.length d)
            freq).freq.set (fsM freq.length d - 1) 0) (fsM freq.length d - 1) := rfl
    obtain ⟨hdl, hdroot, hddep⟩ := depthLoop_spec freq.length (fsM freq.length d - 1)
      (fsM freq.length d - 1)
      ((mergeLoop freq.length d (fsC1 freq.length d) (fsM freq.length d) freq).freq.set
        (fsM freq.length d - 1) 0)
      (le_refl _) (by rw [List.length_set]; exact hl) hmmn
      (getD_set_self _ _ _ _ (by rw [hl]; omega))
      (fun i hi => by
        rw [getD_set_other _ _ _ (by omega : fsM freq.length d - 1 ≠ i)]
        exact hptr i hi)
      (fun j hj1 hj2 => absurd (Nat.lt_of_le_of_lt hj1 hj2) (lt_irrefl _))
    rw [← hfd] at hdl hdroot hddep
    have hdep255 : ∀ i < fsM freq.length d - 1,
        (fsDepths freq.length d freq).getD i 0 ≤ 255 := by
      intro i hi
      have h2 := (hddep i hi).2
      omega
    have hmdge : ∀ i < fsM freq.length d - 1,
        (fsDepths freq.length d freq).getD i 0
          ≤ maxDepth (fsDepths freq.length d freq) (fsM freq.length d - 1) := by
      intro i hi
      have h := maxDepth_ge (fsDepths freq.length d freq) (fsM freq.length d - 1) i hi
      rwa [Nat.mod_eq_of_lt (by have := hdep255 i hi; omega)] at h
    have hclen : (countsLoop (fsDepths freq.length d freq) (fsM freq.length d - 1)
        (List.replicate
          (maxDepth (fsDepths freq.length d freq) (fsM freq.length d - 1) + 1) 0)).length
        = maxDepth (fsDepths freq.length d freq) (fsM freq.length d - 1) + 1 := by
      rw [countsLoop_length, List.length_replicate]
    have hcsum : (countsLoop (fsDepths freq.length d freq) (fsM freq.length d - 1)
        (List.replicate
          (maxDepth (fsDepths freq.length d freq) (fsM freq.length d - 1) + 1) 0)).sum
        = fsM freq.length d - 1 := by
      rw [countsLoop_sum _ _ _ (fun i hi => by
        rw [List.length_replicate]
        have h1 := (hddep i hi).1
        have h2 := hmdge i hi
        omega)]
      simp
    have hclast : (countsLoop (fsDepths freq.length d freq) (fsM freq.length d - 1)
        (List.replicate
          (maxDepth (fsDepths freq.length d freq) (fsM freq.length d - 1) + 1) 0)).getD
          (maxDepth (fsDepths freq.length d freq) (fsM freq.length d - 1)) 0 = 0 := by
      rw [countsLoop_getD _ _ _ _ (fun i hi => by
        have h1 := (hddep i hi).1
        have h2 := hmdge i hi
        omega)]
      simp
    have hgl : (countsLoop (fsDepths freq.length d freq) (fsM freq.length d - 1)
        (List.replicate
          (maxDepth (fsDepths freq.length d freq) (fsM freq.length d - 1) + 1) 0)).getLast?
        = some 0 := by
      rw [List.getLast?_eq_getElem?, hclen]
      have hmdlt : maxDepth (fsDepths freq.length d freq) (fsM freq.length d - 1)
          < (countsLoop (fsDepths freq.length d freq) (fsM freq.length d - 1)
            (List.replicate
              (maxDepth (fsDepths freq.length d freq) (fsM freq.length d - 1) + 1) 0)).length := by
        omega
      show (countsLoop _ _ _)[maxDepth (fsDepths freq.length d freq) (fsM freq.length d - 1)]?
        = some 0
      have hsome := List.getElem?_eq_getElem hmdlt
      rw [List.getD_eq_getElem?_getD, hsome, Option.getD_some] at hclast
      rw [hsome, hclast]
    have hlsum : leafSumZ d (countsLoop (fsDepths freq.length d freq) (fsM freq.length d - 1)
        (List.replicate
          (maxDepth (fsDepths freq.length d freq) (fsM freq.length d - 1) + 1) 0))
        = (d : Int) + ((d : Int) - 1) * ((fsM freq.length d - 1 : Nat) : Int) := by
      rw [leafSumZ, leafSumAux_eq _ _ _ (by omega)]
      have hlast : (countsLoop (fsDepths freq.length d freq) (fsM freq.length d - 1)
          (List.replicate
            (maxDepth (fsDepths freq.length d freq) (fsM freq.length d - 1) + 1) 0)).getD
          ((countsLoop (fsDepths freq.length d freq) (fsM freq.length d - 1)
            (List.replicate
              (maxDepth (fsDepths freq.length d freq) (fsM freq.length d - 1) + 1) 0)).length
            - 1) 0 = 0 := by
        rw [hclen]
        exact hclast
      rw [hlast, hcsum]
      push_cast
      ring
    rw [hfs]
    refine ⟨rfl, hgl, ?_, ?_⟩
    · rw [if_neg hnd, hlsum]
      rw [Nat.cast_sub (by omega : 1 ≤ fsM freq.length d)]
      push_cast
      ring
    · intro hdvd _
      rw [hlsum]
      have hc1d : fsC1 freq.length d = d := by
        rw [fsC1, if_pos (Nat.dvd_iff_mod_eq_zero.mp hdvd)]
      have hnat : d + (fsM freq.length d - 1) * (d - 1) = freq.length := by omega
      have hcast : (d : Int) + ((fsM freq.length d - 1 : Nat) : Int)
          * ((d - 1 : Nat) : Int) = (freq.length : Int) := by exact_mod_cast hnat
      have h1 : ((fsM freq.length d - 1 : Nat) : Int) = (fsM freq.length d : Int) - 1 := by
        omega
      have h2 : ((d - 1 : Nat) : Int) = (d : Int) - 1 := by omega
      rw [h1, h2] at hcast
      rw [h1]
      linear_combination hcast

/-- C2 witness: the amended theorem applied to the repository's 3-symbol
binary test input (`freq = [10, 50, 100]`, `d = 2`): here `(d-1) ∣ (n-1)`,
so the leaf sum equals `n = 3`. -/
theorem c2_witness :
    (fromSorted 2 ([7, 8, 9] : List Nat) [10, 50, 100]).values = [9, 8, 7] ∧
    (fromSorted 2 ([7, 8, 9] : List Nat) [10, 50, 100]).internalNodesCount.getLast?
      = some 0 ∧
    leafSumZ 2 (fromSorted 2 ([7, 8, 9] : List Nat) [10, 50, 100]).internalNodesCount
      = 3 := by
  have h := c2_from_sorted_invariants_amended 2 ([7, 8, 9] : List Nat) [10, 50, 100]
    (by decide) (by decide) (by decide) (by decide)
  refine ⟨h.1.trans (by decide), h.2.1, ?_⟩
  have h4 := h.2.2.2 (by decide) (by decide)
  simpa using h4

-- Sanity checks against the repository's own tests
-- (`coding_3sym_1bit`, `coding_3sym_2bits`, `coding_6sym_1bit`,
--  `coding_6sym_2bits`, `coding_5sym_tree_degree3`); values are renamed to
-- numbers, sorted by ascending frequency as `from_frequencies` does.
example : (fromSorted 2 [2, 1, 0] [10, 50, 100]).internalNodesCount = [1, 0] := by decide
example : (fromSorted 2 [2, 1, 0] [10, 50, 100]).values = [0, 1, 2] := by decide
example : (fromSorted 4 [2, 1, 0] [10, 50, 100]).internalNodesCount = [0] := by decide
example : (fromSorted 2 [5, 4, 3, 2, 1, 0] [1, 2, 3, 10, 11, 12]).internalNodesCount
    = [2, 1, 1, 0] := by decide
example : (fromSorted 4 [5, 4, 3, 2, 1, 0] [1, 2, 3, 10, 11, 12]).internalNodesCount
    = [1, 0] := by decide
example : (fromSorted 3 [4, 3, 2, 1, 0] [1, 2, 3, 11, 12]).internalNodesCount
    = [1, 0] := by decide

example :
    codesList (⟨[0, 1, 2, 3, 4, 5], [2, 1, 1, 0], 2⟩ : Coding Nat) =
      [(0, ⟨1, 2⟩), (1, ⟨2, 2⟩), (2, ⟨3, 2⟩), (3, ⟨1, 3⟩), (4, ⟨0, 4⟩),
       (5, ⟨1, 4⟩)] := by decide

example :
    let c : Coding Nat := ⟨[0, 1, 2], [1, 0], 2⟩
    codesList c = [(0, ⟨1, 1⟩), (1, ⟨0, 2⟩), (2, ⟨1, 2⟩)] := by decide

example :
    let c : Coding Nat := ⟨[0, 1, 2], [1, 0], 2⟩
    consumeSeq c (newDecoder c) [0, 1] = [.Incomplete, .Value 2] := by decide

example :
    let c : Coding Nat := ⟨[0, 1, 2, 3, 4, 5], [1, 0], 4⟩
    consumeSeq c (newDecoder c) [0, 2] = [.Incomplete, .Value 5] := by decide

/-!
## Core B: FMPH (`ph/src/fmph/function.rs`, `ph/src/fp/keyset.rs`)
-/

/-- Bit `i` of a bit array stored as 64-bit words (the external `bitm`
crate's `get_bit`; modelled from the spec: bit `i` lives in word `i / 64`
at position `i % 64`). -/
def getBitW (ws : List Nat) (i : Nat) : Bool :=
  Nat.testBit (ws.getD (i / 64) 0) (i % 64)

/-- `fphash_add_bit`: set bit `bit_index` of `result`; if it was already
set there, record it in `collision` (the collision word is or-ed with
`result[index] & mask` first, from the old result word, as in the source). -/
def fphashAddBit (result collision : List Nat) (bitIndex : Nat) : List Nat × List Nat :=
  let index := bitIndex / 64
  let mask := 1 <<< (bitIndex % 64)
  let collision2 :=
    collision.set index (collision.getD index 0 ||| (result.getD index 0 &&& mask))
  let result2 := result.set index (result.getD index 0 ||| mask)
  (result2, collision2)

/-- `fphash_remove_collided`: `*r &= !c` word-wise; the `u64` complement of
`c` is `c XOR (2^64 - 1)`. -/
def fphashRemoveCollided (result collision : List Nat) : List Nat :=
  List.zipWith (fun r c => r &&& (c ^^^ (2 ^ 64 - 1))) result collision

/-- `Builder::build_array_for_indices_st`: zeroed `result`/`collision`
words, `fphash_add_bit` for every index, then remove the collided bits. -/
def buildArrayForIndicesST (bitIndices : List Nat) (levelSizeSegments : Nat) : List Nat :=
  let p := bitIndices.foldl
    (fun (p : List Nat × List Nat) b => fphashAddBit p.1 p.2 b)
    (List.replicate levelSizeSegments 0, List.replicate levelSizeSegments 0)
  fphashRemoveCollided p.1 p.2

theorem div_mod_64_eq {i b : Nat} (h1 : i / 64 = b / 64) (h2 : i % 64 = b % 64) : i = b := by
  omega

theorem addBit_fst_len (r c : List Nat) (b : Nat) :
    (fphashAddBit r c b).1.length = r.length := List.length_set ..

theorem addBit_snd_len (r c : List Nat) (b : Nat) :
    (fphashAddBit r c b).2.length = c.length := List.length_set ..

theorem testBit_or_mask (w s t : Nat) :
    (w ||| 1 <<< s).testBit t = (w.testBit t || decide (t = s)) := by
  rw [Nat.testBit_or, Nat.shiftLeft_eq, Nat.one_mul, Nat.testBit_two_pow]
  by_cases h : s = t
  · subst h; simp
  · have h2 : ¬ (t = s) := fun hK => h hK.symm
    simp [h, h2]

theorem testBit_and_mask (w s t : Nat) :
    (w &&& 1 <<< s).testBit t = (w.testBit t && decide (t = s)) := by
  rw [Nat.testBit_and, Nat.shiftLeft_eq, Nat.one_mul, Nat.testBit_two_pow]
  by_cases h : s = t
  · subst h; simp
  · have h2 : ¬ (t = s) := fun hK => h hK.symm
    simp [h, h2]

theorem addBit_fst_bit (r c : List Nat) (b : Nat) (hb : b / 64 < r.length) (i : Nat) :
    getBitW (fphashAddBit r c b).1 i = (getBitW r i || decide (i = b)) := by
  show getBitW (r.set (b / 64) (r.getD (b / 64) 0 ||| 1 <<< (b % 64))) i = _
  by_cases hw : i / 64 = b / 64
  · rw [getBitW, hw, getD_set_self _ _ _ _ hb,
      testBit_or_mask _ _ _, getBitW, hw]
    by_cases he : i % 64 = b % 64
    · rw [he]
      simp only [decide_eq_true_eq]
      have : i = b := by omega
      simp [this]
    · have hne : i ≠ b := fun hK => he (by rw [hK])
      simp [he, hne]
  · have hne : i ≠ b := fun hK => hw (by rw [hK])
    rw [getBitW, getD_set_other _ _ _ (fun hK => hw hK.symm), ← getBitW]
    simp [hne]

theorem addBit_snd_bit (r c : List Nat) (b : Nat) (hb : b / 64 < c.length) (i : Nat) :
    getBitW (fphashAddBit r c b).2 i
      = (getBitW c i || (decide (i = b) && getBitW r i)) := by
  show getBitW (c.set (b / 64) (c.getD (b / 64) 0 ||| (r.getD (b / 64) 0 &&& 1 <<< (b % 64)))) i
      = _
  by_cases hw : i / 64 = b / 64
  · rw [getBitW, hw, getD_set_self _ _ _ _ hb, Nat.testBit_or, testBit_and_mask]
    by_cases he : i % 64 = b % 64
    · have heq : i = b := by omega
      subst heq
      rw [getBitW, getBitW, hw]
      simp [he]
    · have hne : i ≠ b := fun hK => he (by rw [hK])
      rw [getBitW, hw]
      simp [he, hne]
  · have hne : i ≠ b := fun hK => hw (by rw [hK])
    rw [getBitW, getD_set_other _ _ _ (fun hK => hw hK.symm), ← getBitW]
    simp [hne]

theorem getD_zipWith (f : Nat → Nat → Nat) :
    ∀ (r c : List Nat) (j : Nat), j < r.length → j < c.length →
      (List.zipWith f r c).getD j 0 = f (r.getD j 0) (c.getD j 0) := by
  intro r
  induction r with
  | nil => intro c j h _; simp at h
  | cons a r ih =>
    intro c j h1 h2
    cases c with
    | nil => simp at h2
    | cons b c =>
      cases j with
      | zero => rfl
      | succ j =>
        show (List.zipWith f r c).getD j 0 = _
        exact ih c j (by simpa using h1) (by simpa using h2)

theorem removeCollided_bit (r c : List Nat) (hlen : r.length = c.length) (i : Nat) :
    getBitW (fphashRemoveCollided r c) i = (getBitW r i && !(getBitW c i)) := by
  by_cases hj : i / 64 < r.length
  · rw [getBitW, fphashRemoveCollided, getD_zipWith _ _ _ _ hj (by omega)]
    rw [Nat.testBit_and, Nat.testBit_xor, getBitW, getBitW]
    have h1 : Nat.testBit (2 ^ 64 - 1) (i % 64) = true := by
      rw [Nat.testBit_two_pow_sub_one]
      simp [Nat.mod_lt i (by omega : 0 < 64)]
    rw [h1]
    cases Nat.testBit (r.getD (i / 64) 0) (i % 64) <;>
      cases Nat.testBit (c.getD (i / 64) 0) (i % 64) <;> rfl
  · have h1 : (fphashRemoveCollided r c).getD (i / 64) 0 = 0 := by
      apply List.getD_eq_default
      rw [fphashRemoveCollided, List.length_zipWith]
      omega
    have h2 : r.getD (i / 64) 0 = 0 := List.getD_eq_default _ _ (by omega)
    rw [getBitW, h1, getBitW, h2]
    simp

theorem buildFold_bits (segs : Nat) :
    ∀ (l : List Nat) (r c : List Nat), r.length = segs → c.length = segs →
      (∀ x ∈ l, x < 64 * segs) →
      (l.foldl (fun (p : List Nat × List Nat) b => fphashAddBit p.1 p.2 b) (r, c)).1.length
          = segs ∧
      (l.foldl (fun (p : List Nat × List Nat) b => fphashAddBit p.1 p.2 b) (r, c)).2.length
          = segs ∧
      ∀ i,
        ((getBitW (l.foldl (fun (p : List Nat × List Nat) b =>
            fphashAddBit p.1 p.2 b) (r, c)).1 i = true ↔
          (getBitW r i = true ∨ 1 ≤ l.count i)) ∧
        (getBitW (l.foldl (fun (p : List Nat × List Nat) b =>
            fphashAddBit p.1 p.2 b) (r, c)).2 i = true ↔
          (getBitW c i = true ∨ (getBitW r i = true ∧ 1 ≤ l.count i) ∨ 2 ≤ l.count i))) := by
  intro l
  induction l with
  | nil =>
    intro r c hr hc _
    refine ⟨hr, hc, fun i => ⟨?_, ?_⟩⟩
    · simp [List.count_nil]
    · simp [List.count_nil]
  | cons x l ih =>
    intro r c hr hc hb
    have hx : x < 64 * segs := hb x (List.mem_cons_self x l)
    have h1 := addBit_fst_bit r c x (by omega)
    have h2 := addBit_snd_bit r c x (by omega)
    obtain ⟨ihl1, ihl2, ihb⟩ := ih (fphashAddBit r c x).1 (fphashAddBit r c x).2
      (by rw [addBit_fst_len, hr]) (by rw [addBit_snd_len, hc])
      (fun y hy => hb y (List.mem_cons_of_mem x hy))
    refine ⟨ihl1, ihl2, fun i => ?_⟩
    obtain ⟨ihr, ihc⟩ := ihb i
    have hA : (getBitW (fphashAddBit r c x).1 i = true)
        ↔ (getBitW r i = true ∨ i = x) := by
      rw [h1 i]
      simp
    have hB : (getBitW (fphashAddBit r c x).2 i = true)
        ↔ (getBitW c i = true ∨ (i = x ∧ getBitW r i = true)) := by
      rw [h2 i]
      simp
    have hcnt : (x :: l).count i = l.count i + if i = x then 1 else 0 := by
      by_cases h : i = x
      · simp [List.count_cons, h]
      · have h2 : ¬ (x = i) := fun hK => h hK.symm
        simp [List.count_cons, h, h2]
    constructor
    · rw [List.foldl_cons, ihr, hA, hcnt]
      by_cases hix : i = x
      · rw [if_pos hix]
        constructor
        · rintro ((h | h) | h)
          · exact Or.inl h
          · exact Or.inr (by omega)
          · exact Or.inr (by omega)
        · rintro (h | h)
          · exact Or.inl (Or.inl h)
          · exact Or.inl (Or.inr hix)
      · rw [if_neg hix, Nat.add_zero]
        constructor
        · rintro ((h | h) | h)
          · exact Or.inl h
          · exact absurd h hix
          · exact Or.inr h
        · rintro (h | h)
          · exact Or.inl (Or.inl h)
          · exact Or.inr h
    · rw [List.foldl_cons, ihc, hA, hB, hcnt]
      by_cases hix : i = x
      · rw [if_pos hix]
        constructor
        · rintro (h | h | h)
          · rcases h with h | h
            · exact Or.inl h
            · exact Or.inr (Or.inl ⟨h.2, by omega⟩)
          · exact Or.inr (Or.inr (by omega))
          · exact Or.inr (Or.inr (by omega))
        · rintro (h | h | h)
          · exact Or.inl (Or.inl h)
          · exact Or.inl (Or.inr ⟨hix, h.1⟩)
          · exact Or.inr (Or.inl ⟨Or.inr hix, by omega⟩)
      · rw [if_neg hix, Nat.add_zero]
        constructor
        · rintro (h | h | h)
          · rcases h with h | h
            · exact Or.inl h
            · exact absurd h.1 hix
          · rcases h with ⟨h1b | h1b, h2b⟩
            · exact Or.inr (Or.inl ⟨h1b, h2b⟩)
            · exact absurd h1b hix
          · exact Or.inr (Or.inr h)
        · rintro (h | h | h)
          · exact Or.inl (Or.inl h)
          · exact Or.inr (Or.inl ⟨Or.inl h.1, h.2⟩)
          · exact Or.inr (Or.inr h)

theorem getBitW_replicate_zero (segs i : Nat) :
    getBitW (List.replicate segs 0) i = false := by
  rw [getBitW]
  rcases Nat.lt_or_ge (i / 64) segs with h | h
  · rw [List.getD_eq_getElem _ _ (by simpa using h)]
    simp
  · rw [List.getD_eq_default _ _ (by simpa using h)]
    simp

/-- The first-set-then-cancel protocol computes exactly the singleton
occupancy predicate: bit `i` of the built array is set iff exactly one of
the bit indices equals `i`. -/
theorem buildArray_bit (bitIndices : List Nat) (segs : Nat)
    (hb : ∀ x ∈ bitIndices, x < 64 * segs) (i : Nat) :
    (getBitW (buildArrayForIndicesST bitIndices segs) i = true
      ↔ bitIndices.count i = 1) := by
  obtain ⟨hl1, hl2, hbits⟩ := buildFold_bits segs bitIndices
    (List.replicate segs 0) (List.replicate segs 0)
    (List.length_replicate ..) (List.length_replicate ..) hb
  obtain ⟨hr, hc⟩ := hbits i
  rw [getBitW_replicate_zero] at hr hc
  have hrw := removeCollided_bit
    (List.foldl (fun (p : List Nat × List Nat) b =>
      fphashAddBit p.1 p.2 b) (List.replicate segs 0, List.replicate segs 0)
        bitIndices).1
    (List.foldl (fun (p : List Nat × List Nat) b =>
      fphashAddBit p.1 p.2 b) (List.replicate segs 0, List.replicate segs 0)
        bitIndices).2
    (by rw [hl1, hl2]) i
  rw [show buildArrayForIndicesST bitIndices segs
      = fphashRemoveCollided
        (List.foldl (fun (p : List Nat × List Nat) b =>
          fphashAddBit p.1 p.2 b) (List.replicate segs 0, List.replicate segs 0)
            bitIndices).1
        (List.foldl (fun (p : List Nat × List Nat) b =>
          fphashAddBit p.1 p.2 b) (List.replicate segs 0, List.replicate segs 0)
            bitIndices).2 from rfl, hrw]
  simp only [Bool.and_eq_true, Bool.not_eq_true']
  constructor
  · rintro ⟨h1, h2⟩
    have h3 := hr.mp h1
    have h4 : ¬ (getBitW (List.foldl (fun (p : List Nat × List Nat) b =>
        fphashAddBit p.1 p.2 b) (List.replicate segs 0, List.replicate segs 0)
          bitIndices).2 i = true) := by
      rw [h2]
      exact Bool.false_ne_true
    rw [hc] at h4
    simp only [not_or] at h4
    rcases h3 with h3 | h3
    · exact absurd h3 (by simp)
    · have h5 := h4.2.2
      omega
  · intro h1
    refine ⟨hr.mpr (Or.inr (by omega)), ?_⟩
    rcases hK : getBitW (List.foldl (fun (p : List Nat × List Nat) b =>
        fphashAddBit p.1 p.2 b) (List.replicate segs 0, List.replicate segs 0)
          bitIndices).2 i with _ | _
    · rfl
    · exfalso
      have h2 := hc.mp hK
      rcases h2 with h2 | h2
      · exact absurd h2 (by simp)
      · rcases h2 with ⟨h2a, _⟩ | h2
        · exact absurd h2a (by simp)
        · omega

/-- C4 (confirmed): for every list of bit indices below
`64 * level_size_segments`, the level bit-array produced by the
single-threaded first-set-then-cancel protocol
(`fphash_add_bit` over all indices, then `result AND NOT collision`,
i.e. `build_array_for_indices_st`) has bit `i` set iff exactly one element
of the list equals `i`. -/
theorem c4_first_set_then_cancel (bitIndices : List Nat) (levelSizeSegments : Nat)
    (hb : ∀ x ∈ bitIndices, x < 64 * levelSizeSegments) (i : Nat) :
    (getBitW (buildArrayForIndicesST bitIndices levelSizeSegments) i = true
      ↔ bitIndices.count i = 1) :=
  buildArray_bit bitIndices levelSizeSegments hb i

/-- C4 witness: the protocol run on the concrete indices `[0, 3, 3, 65]`
with 2 words: bit 65 (unique occupant) is set, bit 3 (collision) is not. -/
theorem c4_witness :
    getBitW (buildArrayForIndicesST [0, 3, 3, 65] 2) 65 = true ∧
    ¬ getBitW (buildArrayForIndicesST [0, 3, 3, 65] 2) 3 = true := by
  constructor
  · exact (c4_first_set_then_cancel [0, 3, 3, 65] 2 (by decide) 65).mpr (by decide)
  · intro hK
    have h2 := (c4_first_set_then_cancel [0, 3, 3, 65] 2 (by decide) 3).mp hK
    exact absurd h2 (by decide)

/-! ### Core C: `SliceMutSource` (ph/src/fp/keyset.rs).

`listSwap` embeds `slice.swap(i, j)`; `retainAux` embeds the `while` loop of
`retain_keys` (the `none` branch of the index lookup models the unreachable
out-of-bounds panic). -/

def listSwap {K : Type} (l : List K) (i j : Nat) : List K :=
  match l[i]?, l[j]? with
  | some a, some b => (l.set i b).set j a
  | _, _ => l

structure SliceMutSource (K : Type) where
  slice : List K
  len : Nat

def SliceMutSource.new {K : Type} (slice : List K) : SliceMutSource K :=
  ⟨slice, slice.length⟩

def keys_len {K : Type} (s : SliceMutSource K) : Nat := s.len

def for_each_key_list {K : Type} (s : SliceMutSource K) : List K :=
  s.slice.take s.len

def retainAux {K : Type} (f : K → Bool) (slice : List K) (len i : Nat) :
    List K × Nat :=
  if h : i < len then
    match slice[i]? with
    | some x =>
      if f x then retainAux f slice len (i + 1)
      else retainAux f (listSwap slice i (len - 1)) (len - 1) i
    | none => (slice, len)
  else (slice, len)
termination_by len - i
decreasing_by
  all_goals omega

def retain_keys {K : Type} (f : K → Bool) (s : SliceMutSource K) :
    SliceMutSource K :=
  ⟨(retainAux f s.slice s.len 0).1, (retainAux f s.slice s.len 0).2⟩

theorem length_listSwap {K : Type} (l : List K) (i j : Nat) :
    (listSwap l i j).length = l.length := by
  unfold listSwap
  rcases hi : l[i]? with _ | a <;> rcases hj : l[j]? with _ | b <;>
    simp [hi, hj]

theorem getElem?_listSwap_ne {K : Type} (l : List K) (i j k : Nat)
    (h1 : k ≠ i) (h2 : k ≠ j) : (listSwap l i j)[k]? = l[k]? := by
  unfold listSwap
  rcases hi : l[i]? with _ | a <;> rcases hj : l[j]? with _ | b <;>
    simp only [hi, hj]
  rw [List.getElem?_set_ne (Ne.symm h2), List.getElem?_set_ne (Ne.symm h1)]

theorem getElem?_listSwap_fst {K : Type} (l : List K) (i j : Nat)
    (hi : i < l.length) (hj : j < l.length) : (listSwap l i j)[i]? = l[j]? := by
  have hi2 : l[i]? = some l[i] := List.getElem?_eq_getElem hi
  have hj2 : l[j]? = some l[j] := List.getElem?_eq_getElem hj
  unfold listSwap
  simp only [hi2, hj2]
  by_cases hij : i = j
  · subst hij
    rw [List.getElem?_set_self (by simp [hi])]
  · rw [List.getElem?_set_ne (Ne.symm hij), List.getElem?_set_self (by simp [hi])]

theorem retainAux_stop {K : Type} (f : K → Bool) (slice : List K) (len i : Nat)
    (h : ¬ i < len) : retainAux f slice len i = (slice, len) := by
  rw [retainAux, dif_neg h]

theorem retainAux_spec_base {K : Type} (f : K → Bool) (slice : List K)
    (len i : Nat) (hi : i ≤ len) (hstop : ¬ i < len) :
    (retainAux f slice len i).1.length = slice.length ∧
    (retainAux f slice len i).2 ≤ len ∧
    ((retainAux f slice len i).1.take (retainAux f slice len i).2).Perm
      (slice.take i ++ ((slice.take len).drop i).filter f) := by
  have hieq : i = len := by omega
  rw [retainAux_stop f slice len i hstop]
  refine ⟨rfl, le_refl _, ?_⟩
  rw [hieq, List.drop_eq_nil_of_le (List.length_take_le ..), List.filter_nil,
    List.append_nil]

theorem retainAux_spec {K : Type} (f : K → Bool) :
    ∀ fuel slice len i, len - i ≤ fuel → i ≤ len → len ≤ slice.length →
      (retainAux f slice len i).1.length = slice.length ∧
      (retainAux f slice len i).2 ≤ len ∧
      ((retainAux f slice len i).1.take (retainAux f slice len i).2).Perm
        (slice.take i ++ ((slice.take len).drop i).filter f) := by
  intro fuel
  induction fuel with
  | zero =>
    intro slice len i hf hi hlen
    exact retainAux_spec_base f slice len i hi (by omega)
  | succ fuel ih =>
    intro slice len i hf hi hlen
    by_cases h : i < len
    · have hil : i < slice.length := by omega
      have hl1 : len - 1 < slice.length := by omega
      have hx : slice[i]? = some slice[i] := List.getElem?_eq_getElem hil
      have hstep : retainAux f slice len i =
          (if f slice[i] = true then retainAux f slice len (i + 1)
           else retainAux f (listSwap slice i (len - 1)) (len - 1) i) := by
        rw [retainAux, dif_pos h, hx]
      rw [hstep]
      by_cases hfx : f slice[i] = true
      · rw [if_pos hfx]
        obtain ⟨ih1, ih2, ih3⟩ := ih slice len (i + 1) (by omega) (by omega) hlen
        refine ⟨ih1, by omega, ?_⟩
        have hwin : (slice.take len).drop i
            = slice[i] :: (slice.take len).drop (i + 1) := by
          rw [List.drop_eq_getElem_cons
            (show i < (slice.take len).length by rw [List.length_take]; omega)]
          rw [List.getElem_take]
        have htake : slice.take (i + 1) = slice.take i ++ [slice[i]] := by
          rw [List.take_succ, hx]
          rfl
        rw [hwin, List.filter_cons_of_pos hfx]
        have heq2 : slice.take i ++ slice[i] :: ((slice.take len).drop (i + 1)).filter f
            = slice.take (i + 1) ++ ((slice.take len).drop (i + 1)).filter f := by
          rw [htake, List.append_assoc]
          rfl
        rw [heq2]
        exact ih3
      · rw [if_neg hfx]
        obtain ⟨ih1, ih2, ih3⟩ := ih (listSwap slice i (len - 1)) (len - 1) i
          (by omega) (by omega) (by rw [length_listSwap]; omega)
        refine ⟨by rw [ih1, length_listSwap], by omega, ?_⟩
        have htakei : (listSwap slice i (len - 1)).take i = slice.take i := by
          apply List.ext_getElem?
          intro k
          rw [List.getElem?_take, List.getElem?_take]
          by_cases hk : k < i
          · rw [if_pos hk, if_pos hk]
            exact getElem?_listSwap_ne slice i (len - 1) k (by omega) (by omega)
          · rw [if_neg hk, if_neg hk]
        rw [htakei] at ih3
        by_cases hlast : len = i + 1
        · have hold : (slice.take len).drop i = [slice[i]] := by
            have h1 : slice.take len = slice.take i ++ [slice[i]] := by
              rw [hlast, List.take_succ, hx]
              rfl
            rw [h1, List.drop_append_of_le_length
              (by rw [List.length_take]; omega)]
            rw [List.drop_eq_nil_of_le (List.length_take_le ..), List.nil_append]
          have hnew : ((listSwap slice i (len - 1)).take (len - 1)).drop i
              = ([] : List K) := by
            apply List.drop_eq_nil_of_le
            rw [List.length_take, length_listSwap]
            omega
          rw [hnew, List.filter_nil, List.append_nil] at ih3
          have hfil : List.filter f [slice[i]] = [] := by
            simp [hfx]
          rw [hold, hfil, List.append_nil]
          exact ih3
        · have hy : slice[len - 1]? = some slice[len - 1] :=
            List.getElem?_eq_getElem hl1
          have hnew : ((listSwap slice i (len - 1)).take (len - 1)).drop i
              = slice[len - 1] :: (slice.take (len - 1)).drop (i + 1) := by
            apply List.ext_getElem?
            intro k
            cases k with
            | zero =>
              rw [List.getElem?_drop, Nat.add_zero, List.getElem?_cons_zero,
                List.getElem?_take, if_pos (by omega)]
              rw [getElem?_listSwap_fst slice i (len - 1) hil hl1, hy]
            | succ k =>
              rw [List.getElem?_drop, List.getElem?_cons_succ, List.getElem?_drop,
                List.getElem?_take, List.getElem?_take,
                show i + (k + 1) = i + 1 + k from by omega]
              by_cases hk : i + 1 + k < len - 1
              · rw [if_pos hk, if_pos hk]
                exact getElem?_listSwap_ne slice i (len - 1) (i + 1 + k)
                  (by omega) (by omega)
              · rw [if_neg hk, if_neg hk]
          have hold : (slice.take len).drop i
              = slice[i] :: ((slice.take (len - 1)).drop (i + 1) ++ [slice[len - 1]]) := by
            have h1 : slice.take len = slice.take (len - 1) ++ [slice[len - 1]] := by
              conv_lhs => rw [show len = (len - 1) + 1 from by omega]
              rw [List.take_succ, hy]
              rfl
            rw [h1, List.drop_append_of_le_length (by rw [List.length_take]; omega)]
            rw [List.drop_eq_getElem_cons
              (show i < (slice.take (len - 1)).length by rw [List.length_take]; omega)]
            rw [List.getElem_take]
            rfl
          rw [hnew] at ih3
          rw [hold, List.filter_cons_of_neg hfx]
          refine ih3.trans ?_
          apply List.Perm.append_left
          rw [List.filter_append]
          have h6 : List.filter f (slice[len - 1] :: (slice.take (len - 1)).drop (i + 1))
              = List.filter f [slice[len - 1]]
                ++ List.filter f ((slice.take (len - 1)).drop (i + 1)) := by
            rw [← List.filter_append]
            rfl
          rw [h6]
          exact List.perm_append_comm
    · exact retainAux_spec_base f slice len i hi h

/-- C10 (confirmed): for every slice wrapped in `SliceMutSource` (live range
the first `len` elements, `len ≤ slice.length`) and every filter, after
`retain_keys` the live set — the first `keys_len` elements, which is exactly
what `for_each_key` visits — is a permutation of the previously-live keys
satisfying the filter; `keys_len` equals their count, and the slice keeps its
length (removal is in place, by swapping with the current last live element). -/
theorem c10_retain_keys {K : Type} (f : K → Bool) (slice : List K) (len : Nat)
    (h : len ≤ slice.length) :
    (for_each_key_list (retain_keys f ⟨slice, len⟩)).Perm
      ((slice.take len).filter f) ∧
    keys_len (retain_keys f ⟨slice, len⟩) = ((slice.take len).filter f).length ∧
    (retain_keys f ⟨slice, len⟩).slice.length = slice.length := by
  obtain ⟨h1, h2, h3⟩ := retainAux_spec f len slice len 0 (by omega)
    (Nat.zero_le _) h
  rw [List.take_zero, List.nil_append, List.drop_zero] at h3
  have hfe : for_each_key_list (retain_keys f ⟨slice, len⟩)
      = (retainAux f slice len 0).1.take (retainAux f slice len 0).2 := rfl
  refine ⟨by rw [hfe]; exact h3, ?_, h1⟩
  have h4 := h3.length_eq
  rw [List.length_take] at h4
  show (retainAux f slice len 0).2 = _
  omega

/-- C10 witness: retaining the even keys of `[1, 2, 3, 4, 5]`. -/
theorem c10_witness :
    (for_each_key_list (retain_keys (fun x => decide (x % 2 = 0))
        ⟨[1, 2, 3, 4, 5], 5⟩)).Perm
      (([1, 2, 3, 4, 5].take 5).filter (fun x => decide (x % 2 = 0))) ∧
    keys_len (retain_keys (fun x => decide (x % 2 = 0)) ⟨[1, 2, 3, 4, 5], 5⟩)
      = (([1, 2, 3, 4, 5].take 5).filter (fun x => decide (x % 2 = 0))).length ∧
    (retain_keys (fun x => decide (x % 2 = 0))
        ⟨[1, 2, 3, 4, 5], 5⟩).slice.length = [1, 2, 3, 4, 5].length :=
  c10_retain_keys (fun x => decide (x % 2 = 0)) [1, 2, 3, 4, 5] 5 (by decide)

/-! ### Core D: FMPH build and lookup (ph/src/fmph/function.rs).

`map64to64` and `ceilingDiv` live in crates outside `src/`
(`crate::utils::map64_to_64`, `bitm::ceiling_div`). Modelled from the spec:
`map64_to_64(x, n) = (x * n) >> 64` and `ceiling_div(n, d) = ⌈n / d⌉`.
`rankW` models `bitm`'s `ArrayWithRank::rank`: the number of set bits
strictly below the given bit index. The hash family is abstract: `hash k s`
stands for `hash_builder.hash_one(key, seed)` (a `u64`, so `< 2^64`).
`buildLevels` embeds `Builder::build_levels` by its single-threaded
semantics, with the `while input_size != 0` loop expressed by fuel
recursion (`none`: the loop has not finished within `fuel` iterations);
the cached (`build_array_for_indices` over mapped indices) and uncached
(`build_level_st`) paths fold `fphash_add_bit` over the same index
sequence and retain with the same predicate, so both are
`buildStep`. The `usize` product `input_size * relative_level_size`
wraps modulo `2^64`. -/

def map64to64 (x n : Nat) : Nat := x * n / 2 ^ 64

def ceilingDiv (n d : Nat) : Nat := (n + d - 1) / d

def indexF {K : Type} (hash : K → Nat → Nat) (k : K) (seed lsize : Nat) : Nat :=
  map64to64 (hash k seed) lsize

def rankW (ws : List Nat) (i : Nat) : Nat := cntBelow (getBitW ws) i

def popcntW (ws : List Nat) : Nat := cntBelow (getBitW ws) (64 * ws.length)

def levelSegments (rls m : Nat) : Nat := ceilingDiv (m * rls % 2 ^ 64) 6400

def buildStep {K : Type} (hash : K → Nat → Nat) (rls : Nat) (ks : List K)
    (seed : Nat) : List Nat × List K :=
  let segs := levelSegments rls ks.length
  let lsize := segs * 64
  let arr := buildArrayForIndicesST (ks.map fun k => indexF hash k seed lsize) segs
  (arr, ks.filter fun k => ! getBitW arr (indexF hash k seed lsize))

def buildLevels {K : Type} (hash : K → Nat → Nat) (rls : Nat) :
    Nat → List K → Nat → Option (List (List Nat))
  | 0, ks, _ => if ks.isEmpty then some [] else none
  | fuel + 1, ks, seed =>
    if ks.isEmpty then some []
    else
      (buildLevels hash rls fuel (buildStep hash rls ks seed).2 (seed + 1)).map
        (fun rest => (buildStep hash rls ks seed).1 :: rest)

def stepIter {K : Type} (hash : K → Nat → Nat) (rls : Nat) :
    List K × Nat → List K × Nat :=
  fun p => ((buildStep hash rls p.1 p.2).2, p.2 + 1)

/-- `Function::get_stats`: walk the levels; at each level hash with the
level number as seed, return the rank of the hit bit, else move past this
level's bits; `None` once the levels are exhausted. -/
def getAux {K : Type} (hash : K → Nat → Nat) (content : List Nat) :
    List Nat → K → Nat → Nat → Option Nat
  | [], _, _, _ => none
  | s :: rest, k, beginIdx, lvl =>
    let i := beginIdx + indexF hash k lvl (s * 64)
    if getBitW content i then some (rankW content i)
    else getAux hash content rest k (beginIdx + s * 64) (lvl + 1)

/-- `Function::get` on the function assembled by `with_conf_stats`:
`level_sizes` are the word counts of the level arrays and the bit content
is their concatenation. -/
def fmphGet {K : Type} (hash : K → Nat → Nat) (lvls : List (List Nat))
    (k : K) : Option Nat :=
  getAux hash lvls.flatten (lvls.map List.length) k 0 0

theorem addBit_lengths (r c : List Nat) (b : Nat) :
    (fphashAddBit r c b).1.length = r.length ∧
    (fphashAddBit r c b).2.length = c.length := by
  simp [fphashAddBit]

theorem buildFold_lengths :
    ∀ (l : List Nat) (r c : List Nat),
      (l.foldl (fun (p : List Nat × List Nat) b => fphashAddBit p.1 p.2 b)
        (r, c)).1.length = r.length ∧
      (l.foldl (fun (p : List Nat × List Nat) b => fphashAddBit p.1 p.2 b)
        (r, c)).2.length = c.length := by
  intro l
  induction l with
  | nil => exact fun r c => ⟨rfl, rfl⟩
  | cons x l ih =>
    intro r c
    obtain ⟨h1, h2⟩ := ih (fphashAddBit r c x).1 (fphashAddBit r c x).2
    obtain ⟨h3, h4⟩ := addBit_lengths r c x
    exact ⟨by rw [List.foldl_cons, h1, h3], by rw [List.foldl_cons, h2, h4]⟩

theorem buildArray_length (bi : List Nat) (segs : Nat) :
    (buildArrayForIndicesST bi segs).length = segs := by
  obtain ⟨h1, h2⟩ := buildFold_lengths bi (List.replicate segs 0)
    (List.replicate segs 0)
  show (fphashRemoveCollided _ _).length = segs
  rw [fphashRemoveCollided, List.length_zipWith, h1, h2, List.length_replicate]
  omega

theorem map64to64_lt {x n : Nat} (hx : x < 2 ^ 64) (hn : 0 < n) :
    map64to64 x n < n := by
  rw [map64to64, Nat.div_lt_iff_lt_mul (by norm_num : 0 < 2 ^ 64)]
  calc x * n < 2 ^ 64 * n := (Nat.mul_lt_mul_right hn).mpr hx
    _ = n * 2 ^ 64 := Nat.mul_comm _ _

theorem levelSegments_pos {rls m : Nat} (hrls : 100 ≤ rls) (hm : 0 < m)
    (hsz : m * rls < 2 ^ 64) : 0 < levelSegments rls m := by
  rw [levelSegments, ceilingDiv, Nat.mod_eq_of_lt hsz]
  have h1 : 100 ≤ m * rls := le_trans hrls (Nat.le_mul_of_pos_left rls hm)
  omega

theorem buildLevels_zero {K : Type} (hash : K → Nat → Nat) (rls : Nat)
    (ks : List K) (seed : Nat) :
    buildLevels hash rls 0 ks seed = if ks.isEmpty then some [] else none := rfl

theorem buildLevels_succ {K : Type} (hash : K → Nat → Nat) (rls fuel : Nat)
    (ks : List K) (seed : Nat) :
    buildLevels hash rls (fuel + 1) ks seed =
      if ks.isEmpty then some []
      else
        (buildLevels hash rls fuel (buildStep hash rls ks seed).2 (seed + 1)).map
          (fun rest => (buildStep hash rls ks seed).1 :: rest) := rfl

theorem buildLevels_nil {K : Type} (hash : K → Nat → Nat) (rls fuel : Nat)
    (seed : Nat) : buildLevels hash rls (fuel + 1) [] seed = some [] := rfl

theorem buildStep_seed_congr {K : Type} (hash : K → Nat → Nat) (rls : Nat)
    (ks : List K) (s1 s2 : Nat) (hh : ∀ k, hash k s1 = hash k s2) :
    buildStep hash rls ks s1 = buildStep hash rls ks s2 := by
  unfold buildStep indexF
  simp only [hh]

theorem buildLevels_const_none :
    ∀ fuel seed, buildLevels (fun (_ : Nat) _ => 0) 100 fuel [0, 1] seed = none := by
  intro fuel
  induction fuel with
  | zero => intro seed; rfl
  | succ fuel ih =>
    intro seed
    rw [buildLevels_succ]
    have h1 : (buildStep (fun (_ : Nat) _ => 0) 100 [0, 1] seed).2 = [0, 1] := by
      rw [buildStep_seed_congr (fun (_ : Nat) _ => 0) 100 [0, 1] seed 0
        (fun k => rfl)]
      decide
    rw [h1, ih (seed + 1)]
    rfl

theorem buildLevels_of_progress {K : Type} (hash : K → Nat → Nat) (rls : Nat) :
    ∀ m (ks : List K) seed, ks.length ≤ m →
      (∀ n, n ≤ m → ((stepIter hash rls)^[n] (ks, seed)).1 ≠ [] →
        (stepIter hash rls ((stepIter hash rls)^[n] (ks, seed))).1.length
          < ((stepIter hash rls)^[n] (ks, seed)).1.length) →
      ∃ lvls, buildLevels hash rls (m + 1) ks seed = some lvls := by
  intro m
  induction m with
  | zero =>
    intro ks seed hlen _
    have hks : ks = [] := List.length_eq_zero.mp (by omega)
    subst hks
    exact ⟨[], buildLevels_nil hash rls 0 seed⟩
  | succ m ih =>
    intro ks seed hlen hprog
    by_cases hks : ks = []
    · subst hks
      exact ⟨[], buildLevels_nil hash rls (m + 1) seed⟩
    · have h0 := hprog 0 (Nat.zero_le _) hks
      have hlt : (buildStep hash rls ks seed).2.length < ks.length := h0
      have hpr2 : ∀ n, n ≤ m →
          ((stepIter hash rls)^[n] ((buildStep hash rls ks seed).2, seed + 1)).1 ≠ [] →
          (stepIter hash rls
            ((stepIter hash rls)^[n] ((buildStep hash rls ks seed).2, seed + 1))).1.length
            < ((stepIter hash rls)^[n] ((buildStep hash rls ks seed).2, seed + 1)).1.length := by
        intro n hn hne
        have hsh : ((stepIter hash rls)^[n] ((buildStep hash rls ks seed).2, seed + 1))
            = (stepIter hash rls)^[n + 1] (ks, seed) := by
          rw [Function.iterate_succ_apply]
          rfl
        rw [hsh] at hne ⊢
        exact hprog (n + 1) (by omega) hne
      obtain ⟨lvls2, h2⟩ := ih (buildStep hash rls ks seed).2 (seed + 1)
        (by omega) hpr2
      refine ⟨(buildStep hash rls ks seed).1 :: lvls2, ?_⟩
      rw [buildLevels_succ, if_neg (by simp [List.isEmpty_iff, hks]), h2]
      rfl

/-- C5 counterexample: a legal hasher (the constant hasher, with
`relative_level_size = 100`) on the two distinct keys `0` and `1` makes the
retain step of `build_levels` keep both keys unchanged (both land in the
same slot and collide); the 50-iteration bounded run of the
`while input_size != 0` loop does not finish — the loop has no level cap
and never terminates here. -/
theorem c5_counterexample :
    (buildStep (fun (_ : Nat) _ => 0) 100 [0, 1] 0).2 = [0, 1] ∧
    buildLevels (fun (_ : Nat) _ => 0) 100 50 [0, 1] 0 = none :=
  ⟨by decide, buildLevels_const_none 50 0⟩

/-- C5 (corrected): `build_levels` has no level cap and no failure path,
and `relative_level_size ≥ 100` alone does not guarantee termination (the
constant hasher loops forever: every fuel-bounded run returns `none`).
Termination does hold whenever the level passes make progress: if along
the run every level with remaining keys strictly shrinks the key set,
the loop finishes within `#keys + 1` iterations. -/
theorem c5_termination_amended {K : Type} (hash : K → Nat → Nat) (rls : Nat)
    (ks : List K) (seed : Nat)
    (hprog : ∀ n, n ≤ ks.length →
      ((stepIter hash rls)^[n] (ks, seed)).1 ≠ [] →
      (stepIter hash rls ((stepIter hash rls)^[n] (ks, seed))).1.length
        < ((stepIter hash rls)^[n] (ks, seed)).1.length) :
    (∃ lvls, buildLevels hash rls (ks.length + 1) ks seed = some lvls) ∧
    (∀ fuel s, buildLevels (fun (_ : Nat) _ => 0) 100 fuel [0, 1] s = none) :=
  ⟨buildLevels_of_progress hash rls ks.length ks seed (le_refl _) hprog,
   buildLevels_const_none⟩

/-- C5 witness: a hasher that separates the keys `0` and `1` at the first
level satisfies the progress hypothesis, so the build finishes. -/
theorem c5_witness :
    (∃ lvls, buildLevels (fun (k : Nat) _ => k * 2 ^ 63) 100
      ([0, 1].length + 1) [0, 1] 0 = some lvls) ∧
    (∀ fuel s, buildLevels (fun (_ : Nat) _ => 0) 100 fuel [0, 1] s = none) :=
  c5_termination_amended (fun (k : Nat) _ => k * 2 ^ 63) 100 [0, 1] 0 (by decide)

theorem cntBelow_congr (p q : Nat → Bool) (n : Nat) (h : ∀ i, i < n → p i = q i) :
    cntBelow p n = cntBelow q n := by
  induction n with
  | zero => rfl
  | succ n ih =>
    rw [cntBelow_succ, cntBelow_succ, ih (fun i hi => h i (by omega)),
      h n (by omega)]

theorem cntBelow_add (p : Nat → Bool) (a b : Nat) :
    cntBelow p (a + b) = cntBelow p a + cntBelow (fun t => p (a + t)) b := by
  induction b with
  | zero => rfl
  | succ b ih =>
    rw [show a + (b + 1) = (a + b) + 1 from rfl, cntBelow_succ, cntBelow_succ, ih]
    omega

theorem getBitW_append_left (w c : List Nat) (i : Nat) (h : i < 64 * w.length) :
    getBitW (w ++ c) i = getBitW w i := by
  rw [getBitW, getBitW]
  congr 1
  rw [List.getD_eq_getElem?_getD, List.getD_eq_getElem?_getD,
    List.getElem?_append, if_pos (by omega)]

theorem getBitW_append_right (w c : List Nat) (i : Nat) :
    getBitW (w ++ c) (64 * w.length + i) = getBitW c i := by
  rw [getBitW, getBitW]
  have h1 : (64 * w.length + i) / 64 = w.length + i / 64 := by omega
  have h2 : (64 * w.length + i) % 64 = i % 64 := by omega
  rw [h1, h2]
  congr 1
  rw [List.getD_eq_getElem?_getD, List.getD_eq_getElem?_getD,
    List.getElem?_append_right (by omega),
    show w.length + i / 64 - w.length = i / 64 from by omega]

theorem rankW_append (w c : List Nat) (i : Nat) :
    rankW (w ++ c) (64 * w.length + i) = popcntW w + rankW c i := by
  rw [rankW, cntBelow_add]
  congr 1
  · rw [popcntW]
    exact cntBelow_congr _ _ _ (fun j hj => getBitW_append_left w c j hj)
  · rw [rankW]
    exact cntBelow_congr _ _ _ (fun j hj => getBitW_append_right w c j)

theorem rankW_append_left (w c : List Nat) (i : Nat) (h : i ≤ 64 * w.length) :
    rankW (w ++ c) i = rankW w i := by
  rw [rankW, rankW]
  exact cntBelow_congr _ _ _ (fun j hj => getBitW_append_left w c j (by omega))

theorem getAux_nil {K : Type} (hash : K → Nat → Nat) (content : List Nat)
    (k : K) (b lvl : Nat) : getAux hash content [] k b lvl = none := rfl

theorem getAux_cons {K : Type} (hash : K → Nat → Nat) (content : List Nat)
    (s : Nat) (rest : List Nat) (k : K) (b lvl : Nat) :
    getAux hash content (s :: rest) k b lvl =
      if getBitW content (b + indexF hash k lvl (s * 64)) then
        some (rankW content (b + indexF hash k lvl (s * 64)))
      else getAux hash content rest k (b + s * 64) (lvl + 1) := rfl

theorem getAux_shift {K : Type} (hash : K → Nat → Nat) (w c : List Nat) :
    ∀ (ls : List Nat) (k : K) (off lvl : Nat),
      getAux hash (w ++ c) ls k (64 * w.length + off) lvl
        = (getAux hash c ls k off lvl).map (fun r => popcntW w + r) := by
  intro ls
  induction ls with
  | nil => intro k off lvl; rfl
  | cons s rest ih =>
    intro k off lvl
    rw [getAux_cons, getAux_cons]
    have h1 : 64 * w.length + off + indexF hash k lvl (s * 64)
        = 64 * w.length + (off + indexF hash k lvl (s * 64)) := by omega
    rw [h1, getBitW_append_right]
    by_cases hb : getBitW c (off + indexF hash k lvl (s * 64)) = true
    · rw [if_pos hb, if_pos hb, rankW_append]
      rfl
    · rw [if_neg hb, if_neg hb]
      have h2 : 64 * w.length + off + s * 64 = 64 * w.length + (off + s * 64) := by
        omega
      rw [h2, ih]

theorem idx_inj_of_count_one {K : Type} (idx : K → Nat) (ks : List K)
    (hnd : ks.Nodup) {k1 k2 : K} (hk1 : k1 ∈ ks) (hk2 : k2 ∈ ks)
    (hcnt : (ks.map idx).count (idx k1) = 1) (heq : idx k2 = idx k1) :
    k2 = k1 := by
  classical
  by_contra hne
  have hp : ks.Perm (k1 :: ks.erase k1) := List.perm_cons_erase hk1
  have hpm : (ks.map idx).Perm (idx k1 :: (ks.erase k1).map idx) := by
    simpa using hp.map idx
  have hc2 := hpm.count_eq (idx k1)
  rw [hcnt, List.count_cons_self] at hc2
  have hk2e : k2 ∈ ks.erase k1 := (List.mem_erase_of_ne hne).mpr hk2
  have hmem : idx k1 ∈ (ks.erase k1).map idx := by
    rw [← heq]
    exact List.mem_map_of_mem idx hk2e
  have hpos : 0 < ((ks.erase k1).map idx).count (idx k1) :=
    List.count_pos_iff.mpr hmem
  omega

theorem exists_key_of_count_one {K : Type} (idx : K → Nat) (ks : List K)
    (i : Nat) (hcnt : (ks.map idx).count i = 1) : ∃ k ∈ ks, idx k = i := by
  have hmem : i ∈ ks.map idx := List.count_pos_iff.mp (by omega)
  obtain ⟨k, hk, hik⟩ := List.mem_map.mp hmem
  exact ⟨k, hk, hik⟩

theorem filter_length_partition {α : Type _} (p : α → Bool) (l : List α) :
    (l.filter p).length + (l.filter (fun a => ! p a)).length = l.length := by
  induction l with
  | nil => rfl
  | cons a l ih =>
    rw [List.filter_cons, List.filter_cons]
    cases hpa : p a
    · rw [if_neg (by simp [hpa]), if_pos (by simp [hpa])]
      simp only [List.length_cons]
      omega
    · rw [if_pos (by simp [hpa]), if_neg (by simp [hpa])]
      simp only [List.length_cons]
      omega

theorem placed_length_popcnt {K : Type} (idx : K → Nat) (ks : List K)
    (arr : List Nat) (hnd : ks.Nodup)
    (hbit : ∀ i, getBitW arr i = true ↔ (ks.map idx).count i = 1)
    (hlt : ∀ k ∈ ks, idx k < 64 * arr.length) :
    (ks.filter (fun k => getBitW arr (idx k))).length = popcntW arr := by
  classical
  have hplsub : ∀ k ∈ ks.filter (fun k => getBitW arr (idx k)), k ∈ ks :=
    fun k hk => (List.mem_filter.mp hk).1
  have hplbit : ∀ k ∈ ks.filter (fun k => getBitW arr (idx k)),
      getBitW arr (idx k) = true := fun k hk => (List.mem_filter.mp hk).2
  have hndm : ((ks.filter (fun k => getBitW arr (idx k))).map idx).Nodup := by
    apply List.Nodup.map_on ?_ (hnd.filter _)
    intro x hx y hy hxy
    exact (idx_inj_of_count_one idx ks hnd (hplsub x hx) (hplsub y hy)
      ((hbit (idx x)).mp (hplbit x hx)) hxy.symm).symm
  have hnd2 : ((List.range (64 * arr.length)).filter (getBitW arr)).Nodup :=
    (List.nodup_range _).filter _
  have hmemiff : ∀ i,
      i ∈ (ks.filter (fun k => getBitW arr (idx k))).map idx
        ↔ i ∈ (List.range (64 * arr.length)).filter (getBitW arr) := by
    intro i
    constructor
    · intro hi
      obtain ⟨k, hk, hik⟩ := List.mem_map.mp hi
      rw [List.mem_filter, List.mem_range, ← hik]
      exact ⟨hlt k (hplsub k hk), hplbit k hk⟩
    · intro hi
      rw [List.mem_filter, List.mem_range] at hi
      obtain ⟨hin, hbi⟩ := hi
      obtain ⟨k, hk, hik⟩ := exists_key_of_count_one idx ks i ((hbit i).mp hbi)
      apply List.mem_map.mpr
      refine ⟨k, ?_, hik⟩
      rw [List.mem_filter]
      exact ⟨hk, by rw [hik]; exact hbi⟩
  have hlen := ((List.perm_ext_iff_of_nodup hndm hnd2).mpr hmemiff).length_eq
  rw [List.length_map] at hlen
  rw [hlen]
  simp [popcntW, cntBelow, List.countP_eq_length_filter]

theorem level_step {K : Type} (hash : K → Nat → Nat) (seed : Nat)
    (ks : List K) (arr crest lsrest : List Nat) (hnd : ks.Nodup)
    (hbit : ∀ i, getBitW arr i = true
      ↔ ((ks.map fun k => indexF hash k seed (arr.length * 64)).count i = 1))
    (hidxlt : ∀ k ∈ ks, indexF hash k seed (arr.length * 64) < 64 * arr.length)
    (hA : ∀ k ∈ ks.filter
        (fun k => ! getBitW arr (indexF hash k seed (arr.length * 64))),
      ∃ v, getAux hash crest lsrest k 0 (seed + 1) = some v
        ∧ v < (ks.filter
            (fun k => ! getBitW arr (indexF hash k seed (arr.length * 64)))).length)
    (hB : ∀ k1 ∈ ks.filter
        (fun k => ! getBitW arr (indexF hash k seed (arr.length * 64))),
      ∀ k2 ∈ ks.filter
        (fun k => ! getBitW arr (indexF hash k seed (arr.length * 64))),
      getAux hash crest lsrest k1 0 (seed + 1)
        = getAux hash crest lsrest k2 0 (seed + 1) → k1 = k2)
    (hC : ∀ v, v < (ks.filter
        (fun k => ! getBitW arr (indexF hash k seed (arr.length * 64)))).length →
      ∃ k ∈ ks.filter
        (fun k => ! getBitW arr (indexF hash k seed (arr.length * 64))),
      getAux hash crest lsrest k 0 (seed + 1) = some v) :
    (∀ k ∈ ks, ∃ v,
      getAux hash (arr ++ crest) (arr.length :: lsrest) k 0 seed = some v
        ∧ v < ks.length) ∧
    (∀ k1 ∈ ks, ∀ k2 ∈ ks,
      getAux hash (arr ++ crest) (arr.length :: lsrest) k1 0 seed
        = getAux hash (arr ++ crest) (arr.length :: lsrest) k2 0 seed → k1 = k2) ∧
    (∀ v, v < ks.length → ∃ k ∈ ks,
      getAux hash (arr ++ crest) (arr.length :: lsrest) k 0 seed = some v) := by
  have hplace : ∀ k ∈ ks,
      getBitW arr (indexF hash k seed (arr.length * 64)) = true →
      getAux hash (arr ++ crest) (arr.length :: lsrest) k 0 seed
        = some (rankW arr (indexF hash k seed (arr.length * 64))) := by
    intro k hk hbk
    rw [getAux_cons]
    simp only [Nat.zero_add]
    rw [getBitW_append_left _ _ _ (hidxlt k hk), if_pos hbk,
      rankW_append_left _ _ _ (le_of_lt (hidxlt k hk))]
  have hmiss : ∀ k ∈ ks,
      getBitW arr (indexF hash k seed (arr.length * 64)) = false →
      getAux hash (arr ++ crest) (arr.length :: lsrest) k 0 seed
        = (getAux hash crest lsrest k 0 (seed + 1)).map
            (fun r => popcntW arr + r) := by
    intro k hk hbk
    rw [getAux_cons]
    simp only [Nat.zero_add]
    rw [getBitW_append_left _ _ _ (hidxlt k hk),
      if_neg (by rw [hbk]; exact Bool.false_ne_true),
      show (arr.length * 64 : Nat) = 64 * arr.length + 0 from by omega]
    exact getAux_shift hash arr crest lsrest k 0 (seed + 1)
  have hpart := filter_length_partition
    (fun k => getBitW arr (indexF hash k seed (arr.length * 64))) ks
  have hpop := placed_length_popcnt
    (fun k => indexF hash k seed (arr.length * 64)) ks arr hnd hbit hidxlt
  simp only [] at hpart hpop
  refine ⟨?_, ?_, ?_⟩
  · intro k hk
    cases hbk : getBitW arr (indexF hash k seed (arr.length * 64)) with
    | true =>
      refine ⟨rankW arr (indexF hash k seed (arr.length * 64)),
        hplace k hk hbk, ?_⟩
      have h1 : rankW arr (indexF hash k seed (arr.length * 64)) < popcntW arr := by
        rw [rankW, popcntW]
        exact cntBelow_lt_of_true (getBitW arr) (hidxlt k hk) hbk
      omega
    | false =>
      have hkret : k ∈ ks.filter
          (fun k => ! getBitW arr (indexF hash k seed (arr.length * 64))) := by
        rw [List.mem_filter]
        exact ⟨hk, by rw [hbk]; rfl⟩
      obtain ⟨v, hv, hvlt⟩ := hA k hkret
      refine ⟨popcntW arr + v, ?_, by omega⟩
      rw [hmiss k hk hbk, hv]
      rfl
  · intro k1 hk1 k2 hk2 heq
    cases hb1 : getBitW arr (indexF hash k1 seed (arr.length * 64)) with
    | true =>
      cases hb2 : getBitW arr (indexF hash k2 seed (arr.length * 64)) with
      | true =>
        rw [hplace k1 hk1 hb1, hplace k2 hk2 hb2] at heq
        have hr := Option.some.inj heq
        have hieq : indexF hash k1 seed (arr.length * 64)
            = indexF hash k2 seed (arr.length * 64) := by
          apply cntBelow_strict_inj (getBitW arr) hb1 hb2
          rw [rankW, rankW] at hr
          exact hr
        exact (idx_inj_of_count_one
          (fun k => indexF hash k seed (arr.length * 64)) ks hnd hk1 hk2
          ((hbit _).mp hb1) hieq.symm).symm
      | false =>
        exfalso
        have hkret : k2 ∈ ks.filter
            (fun k => ! getBitW arr (indexF hash k seed (arr.length * 64))) := by
          rw [List.mem_filter]
          exact ⟨hk2, by rw [hb2]; rfl⟩
        obtain ⟨v2, hv2, _⟩ := hA k2 hkret
        rw [hplace k1 hk1 hb1, hmiss k2 hk2 hb2, hv2, Option.map_some'] at heq
        have h2 := Option.some.inj heq
        have h1 : rankW arr (indexF hash k1 seed (arr.length * 64)) < popcntW arr := by
          rw [rankW, popcntW]
          exact cntBelow_lt_of_true (getBitW arr) (hidxlt k1 hk1) hb1
        omega
    | false =>
      cases hb2 : getBitW arr (indexF hash k2 seed (arr.length * 64)) with
      | true =>
        exfalso
        have hkret : k1 ∈ ks.filter
            (fun k => ! getBitW arr (indexF hash k seed (arr.length * 64))) := by
          rw [List.mem_filter]
          exact ⟨hk1, by rw [hb1]; rfl⟩
        obtain ⟨v1, hv1, _⟩ := hA k1 hkret
        rw [hmiss k1 hk1 hb1, hplace k2 hk2 hb2, hv1, Option.map_some'] at heq
        have h2 := Option.some.inj heq
        have h1 : rankW arr (indexF hash k2 seed (arr.length * 64)) < popcntW arr := by
          rw [rankW, popcntW]
          exact cntBelow_lt_of_true (getBitW arr) (hidxlt k2 hk2) hb2
        omega
      | false =>
        have hkr1 : k1 ∈ ks.filter
            (fun k => ! getBitW arr (indexF hash k seed (arr.length * 64))) := by
          rw [List.mem_filter]
          exact ⟨hk1, by rw [hb1]; rfl⟩
        have hkr2 : k2 ∈ ks.filter
            (fun k => ! getBitW arr (indexF hash k seed (arr.length * 64))) := by
          rw [List.mem_filter]
          exact ⟨hk2, by rw [hb2]; rfl⟩
        obtain ⟨v1, hv1, _⟩ := hA k1 hkr1
        obtain ⟨v2, hv2, _⟩ := hA k2 hkr2
        rw [hmiss k1 hk1 hb1, hmiss k2 hk2 hb2, hv1, hv2, Option.map_some',
          Option.map_some'] at heq
        have h2 := Option.some.inj heq
        have hv12 : v1 = v2 := by omega
        exact hB k1 hkr1 k2 hkr2 (by rw [hv1, hv2, hv12])
  · intro v hv
    by_cases hvp : v < popcntW arr
    · have hvp2 : v < cntBelow (getBitW arr) (64 * arr.length) := hvp
      obtain ⟨i, hin, hbi, hci⟩ := cntBelow_surj (getBitW arr)
        (64 * arr.length) v hvp2
      obtain ⟨k, hk, hik⟩ := exists_key_of_count_one
        (fun k => indexF hash k seed (arr.length * 64)) ks i ((hbit i).mp hbi)
      have hik2 : indexF hash k seed (arr.length * 64) = i := hik
      refine ⟨k, hk, ?_⟩
      rw [hplace k hk (by rw [hik2]; exact hbi), hik2,
        show rankW arr i = v from by rw [rankW]; exact hci]
    · have hvr : v - popcntW arr < (ks.filter
          (fun k => ! getBitW arr (indexF hash k seed (arr.length * 64)))).length := by
        omega
      obtain ⟨k, hk, hgk⟩ := hC (v - popcntW arr) hvr
      have hkks : k ∈ ks := (List.mem_filter.mp hk).1
      have hbk : getBitW arr (indexF hash k seed (arr.length * 64)) = false := by
        have h2 := (List.mem_filter.mp hk).2
        cases hcb : getBitW arr (indexF hash k seed (arr.length * 64)) with
        | false => rfl
        | true =>
          rw [hcb] at h2
          exact absurd h2 (by simp)
      refine ⟨k, hkks, ?_⟩
      rw [hmiss k hkks hbk, hgk, Option.map_some',
        show popcntW arr + (v - popcntW arr) = v from by omega]

theorem buildLevels_getAux {K : Type} (hash : K → Nat → Nat) (rls : Nat)
    (hh : ∀ k s, hash k s < 2 ^ 64) (hrls : 100 ≤ rls) :
    ∀ fuel (ks : List K) (seed : Nat) (lvls : List (List Nat)),
      ks.Nodup → ks.length * rls < 2 ^ 64 →
      buildLevels hash rls fuel ks seed = some lvls →
      ((∀ k ∈ ks, ∃ v, getAux hash lvls.flatten (lvls.map List.length) k 0 seed
          = some v ∧ v < ks.length) ∧
       (∀ k1 ∈ ks, ∀ k2 ∈ ks,
         getAux hash lvls.flatten (lvls.map List.length) k1 0 seed
           = getAux hash lvls.flatten (lvls.map List.length) k2 0 seed → k1 = k2) ∧
       (∀ v, v < ks.length → ∃ k ∈ ks,
         getAux hash lvls.flatten (lvls.map List.length) k 0 seed = some v)) := by
  intro fuel
  induction fuel with
  | zero =>
    intro ks seed lvls hnd hsz hb
    rw [buildLevels_zero] at hb
    by_cases hke : ks.isEmpty
    · have hks : ks = [] := List.isEmpty_iff.mp hke
      subst hks
      exact ⟨fun k hk => absurd hk (List.not_mem_nil k),
        fun k1 hk1 => absurd hk1 (List.not_mem_nil k1),
        fun v hv => absurd hv (by simp)⟩
    · rw [if_neg hke] at hb
      exact absurd hb (by simp)
  | succ fuel ih =>
    intro ks seed lvls hnd hsz hb
    by_cases hke : ks.isEmpty
    · have hks : ks = [] := List.isEmpty_iff.mp hke
      subst hks
      exact ⟨fun k hk => absurd hk (List.not_mem_nil k),
        fun k1 hk1 => absurd hk1 (List.not_mem_nil k1),
        fun v hv => absurd hv (by simp)⟩
    · rw [buildLevels_succ, if_neg hke, Option.map_eq_some'] at hb
      obtain ⟨rest, hrest, hlv⟩ := hb
      have hlv2 : lvls = (buildStep hash rls ks seed).1 :: rest := hlv.symm
      subst hlv2
      have hksne : ks ≠ [] := fun hK => hke (by rw [hK]; rfl)
      have hkpos : 0 < ks.length := List.length_pos.mpr hksne
      have hsegpos : 0 < levelSegments rls ks.length :=
        levelSegments_pos hrls hkpos hsz
      rw [List.flatten_cons, List.map_cons]
      have harr : (buildStep hash rls ks seed).1
          = buildArrayForIndicesST
              (ks.map fun k => indexF hash k seed (levelSegments rls ks.length * 64))
              (levelSegments rls ks.length) := rfl
      rw [harr]
      have hidxlt0 : ∀ k ∈ ks,
          indexF hash k seed (levelSegments rls ks.length * 64)
            < 64 * levelSegments rls ks.length := by
        intro k hk
        have h1 := map64to64_lt (hh k seed)
          (show 0 < levelSegments rls ks.length * 64 from by omega)
        show map64to64 (hash k seed) (levelSegments rls ks.length * 64)
          < 64 * levelSegments rls ks.length
        omega
      have hbound : ∀ x ∈ ks.map
          (fun k => indexF hash k seed (levelSegments rls ks.length * 64)),
          x < 64 * levelSegments rls ks.length := by
        intro x hx
        obtain ⟨k, hk, hkx⟩ := List.mem_map.mp hx
        rw [← hkx]
        exact hidxlt0 k hk
      have hbit0 := buildArray_bit
        (ks.map fun k => indexF hash k seed (levelSegments rls ks.length * 64))
        (levelSegments rls ks.length) hbound
      have hnd2 : (ks.filter (fun k => ! getBitW
          (buildArrayForIndicesST
            (ks.map fun k => indexF hash k seed (levelSegments rls ks.length * 64))
            (levelSegments rls ks.length))
          (indexF hash k seed (levelSegments rls ks.length * 64)))).Nodup := hnd.filter _
      have hsz2 : (ks.filter (fun k => ! getBitW
          (buildArrayForIndicesST
            (ks.map fun k => indexF hash k seed (levelSegments rls ks.length * 64))
            (levelSegments rls ks.length))
          (indexF hash k seed (levelSegments rls ks.length * 64)))).length * rls < 2 ^ 64 := by
        have h1 := List.length_filter_le
          (fun k => ! getBitW
            (buildArrayForIndicesST
              (ks.map fun k => indexF hash k seed (levelSegments rls ks.length * 64))
              (levelSegments rls ks.length))
            (indexF hash k seed (levelSegments rls ks.length * 64))) ks
        have h2 := Nat.mul_le_mul_right rls h1
        omega
      obtain ⟨hA, hB, hC⟩ := ih
        (ks.filter (fun k => ! getBitW
          (buildArrayForIndicesST
            (ks.map fun k => indexF hash k seed (levelSegments rls ks.length * 64))
            (levelSegments rls ks.length))
          (indexF hash k seed (levelSegments rls ks.length * 64))))
        (seed + 1) rest hnd2 hsz2 hrest
      refine level_step hash seed ks
        (buildArrayForIndicesST
          (ks.map fun k => indexF hash k seed (levelSegments rls ks.length * 64))
          (levelSegments rls ks.length))
        rest.flatten (rest.map List.length) hnd ?_ ?_ ?_ ?_ ?_
      · rw [buildArray_length]
        exact hbit0
      · rw [buildArray_length]
        exact hidxlt0
      · rw [buildArray_length]
        exact hA
      · rw [buildArray_length]
        exact hB
      · rw [buildArray_length]
        exact hC

/-- C1 (confirmed): for every duplicate-free key list and every
configuration with `relative_level_size ≥ 100` (sizes small enough that the
`usize` product does not wrap), if the build loop of `with_conf` finishes
(within any fuel) producing the level arrays, then `get` is `Some` on every
input key, is injective on the input keys, and hits every value of
`{0, …, N−1}`: the restriction of `get` to the keys is a bijection onto
`{0, …, N−1}`. -/
theorem c1_fmph_bijection {K : Type} (hash : K → Nat → Nat) (rls : Nat)
    (keys : List K) (fuel : Nat) (lvls : List (List Nat))
    (hnd : keys.Nodup) (hh : ∀ k s, hash k s < 2 ^ 64)
    (hrls : 100 ≤ rls) (hsz : keys.length * rls < 2 ^ 64)
    (hb : buildLevels hash rls fuel keys 0 = some lvls) :
    (∀ k ∈ keys, ∃ v, fmphGet hash lvls k = some v ∧ v < keys.length) ∧
    (∀ k1 ∈ keys, ∀ k2 ∈ keys,
      fmphGet hash lvls k1 = fmphGet hash lvls k2 → k1 = k2) ∧
    (∀ v, v < keys.length → ∃ k ∈ keys, fmphGet hash lvls k = some v) :=
  buildLevels_getAux hash rls hh hrls fuel keys 0 lvls hnd hsz hb

/-- C1 witness: three keys, a one-level build; `get` maps them bijectively
onto `{0, 1, 2}`. -/
theorem c1_witness :
    (∀ k ∈ [0, 1, 2], ∃ v,
      fmphGet (fun (k : Nat) s => (k * 2 ^ 62 + s) % 2 ^ 64) [[4295032833]] k
        = some v ∧ v < [0, 1, 2].length) ∧
    (∀ k1 ∈ [0, 1, 2], ∀ k2 ∈ [0, 1, 2],
      fmphGet (fun (k : Nat) s => (k * 2 ^ 62 + s) % 2 ^ 64) [[4295032833]] k1
        = fmphGet (fun (k : Nat) s => (k * 2 ^ 62 + s) % 2 ^ 64) [[4295032833]] k2
        → k1 = k2) ∧
    (∀ v, v < [0, 1, 2].length → ∃ k ∈ [0, 1, 2],
      fmphGet (fun (k : Nat) s => (k * 2 ^ 62 + s) % 2 ^ 64) [[4295032833]] k
        = some v) :=
  c1_fmph_bijection (fun (k : Nat) s => (k * 2 ^ 62 + s) % 2 ^ 64) 100
    [0, 1, 2] 1 [[4295032833]] (by decide)
    (fun k s => Nat.mod_lt _ (by norm_num)) (by norm_num) (by norm_num)
    (by decide)

/-! ### Core E: serialization.

The byte-level primitives live outside `src/`. Modelled from the spec:
the VByte codec (`binout::VByte`, spec §6: emit 7 low bits with
continuation bit 1 while `v ≥ 128`, final 7 bits with continuation 0;
array form: `VByte(count)` then `count` VBytes), the `TreeDegree`
(de)serialization (`minimum_redundancy::degree`, spec §4.9:
`BitsPerFragment` writes one byte, `Degree` writes a VByte) and the
`AsIs` 64-bit words (`binout::AsIs`, spec §4.10: raw 8-byte words in a
fixed byte order — little-endian here). Streams are byte lists; a reader
returns the decoded value and the remaining stream, `none` on failure. -/

def vbyteWrite (v : Nat) : List Nat :=
  if v < 128 then [v]
  else (v % 128 + 128) :: vbyteWrite (v / 128)
termination_by v
decreasing_by
  omega

def vbyteLen (v : Nat) : Nat :=
  if v < 128 then 1
  else 1 + vbyteLen (v / 128)
termination_by v
decreasing_by
  omega

def vbyteRead : List Nat → Option (Nat × List Nat)
  | [] => none
  | b :: rest =>
    if b < 128 then some (b, rest)
    else
      match vbyteRead rest with
      | some (v, rest2) => some (b - 128 + 128 * v, rest2)
      | none => none

def readSeq {V : Type} (rd : List Nat → Option (V × List Nat)) :
    Nat → List Nat → Option (List V × List Nat)
  | 0, input => some ([], input)
  | n + 1, input =>
    match rd input with
    | some (v, rest) =>
      match readSeq rd n rest with
      | some (vs, rest2) => some (v :: vs, rest2)
      | none => none
    | none => none

theorem vbyteRead_cons (b : Nat) (rest : List Nat) :
    vbyteRead (b :: rest) =
      if b < 128 then some (b, rest)
      else
        match vbyteRead rest with
        | some (v, rest2) => some (b - 128 + 128 * v, rest2)
        | none => none := rfl

theorem vbyteWrite_read : ∀ v rest,
    vbyteRead (vbyteWrite v ++ rest) = some (v, rest) := by
  intro v
  induction v using Nat.strong_induction_on with
  | _ v ih =>
    intro rest
    by_cases h : v < 128
    · rw [vbyteWrite, if_pos h]
      rw [List.cons_append, List.nil_append, vbyteRead_cons, if_pos h]
    · rw [vbyteWrite, if_neg h, List.cons_append, vbyteRead_cons,
        if_neg (by omega)]
      simp only [ih (v / 128) (by omega) rest]
      have h2 : v % 128 + 128 - 128 + 128 * (v / 128) = v := by omega
      rw [h2]

theorem vbyteWrite_length : ∀ v, (vbyteWrite v).length = vbyteLen v := by
  intro v
  induction v using Nat.strong_induction_on with
  | _ v ih =>
    by_cases h : v < 128
    · rw [vbyteWrite, if_pos h, vbyteLen, if_pos h]
      rfl
    · rw [vbyteWrite, if_neg h, vbyteLen, if_neg h, List.length_cons,
        ih (v / 128) (by omega)]
      omega

theorem readSeq_zero {V : Type} (rd : List Nat → Option (V × List Nat))
    (input : List Nat) : readSeq rd 0 input = some ([], input) := rfl

theorem readSeq_succ {V : Type} (rd : List Nat → Option (V × List Nat))
    (n : Nat) (input : List Nat) :
    readSeq rd (n + 1) input =
      match rd input with
      | some (v, rest) =>
        match readSeq rd n rest with
        | some (vs, rest2) => some (v :: vs, rest2)
        | none => none
      | none => none := rfl

theorem readSeq_write {V : Type} (wr : V → List Nat)
    (rd : List Nat → Option (V × List Nat))
    (h : ∀ v rest, rd (wr v ++ rest) = some (v, rest)) :
    ∀ (xs : List V) (rest : List Nat),
      readSeq rd xs.length ((xs.map wr).flatten ++ rest) = some (xs, rest) := by
  intro xs
  induction xs with
  | nil => intro rest; rfl
  | cons x xs ih =>
    intro rest
    rw [List.length_cons, List.map_cons, List.flatten_cons, List.append_assoc,
      readSeq_succ]
    simp only [h x ((xs.map wr).flatten ++ rest), ih rest]

inductive DegreeRepr where
  | bpf (b : Nat)
  | deg (d : Nat)

/-- Modelled from the spec (§4.9): `BitsPerFragment(b)` writes the single
byte `b`; `Degree(d)` writes `VByte(d)`. -/
def degree_write : DegreeRepr → List Nat
  | DegreeRepr.bpf b => [b]
  | DegreeRepr.deg d => vbyteWrite d

def degree_write_size_bytes : DegreeRepr → Nat
  | DegreeRepr.bpf _ => 1
  | DegreeRepr.deg d => vbyteLen d

def degree_read_bpf (input : List Nat) : Option (DegreeRepr × List Nat) :=
  match input with
  | [] => none
  | b :: rest => some (DegreeRepr.bpf b, rest)

def degree_read_deg (input : List Nat) : Option (DegreeRepr × List Nat) :=
  (vbyteRead input).map (fun p => (DegreeRepr.deg p.1, p.2))

/-- The tree degree denoted by a `TreeDegree` value: `BitsPerFragment(b)`
is the degree `2^b`, `Degree(d)` is `d`. -/
def asDegree : DegreeRepr → Nat
  | DegreeRepr.bpf b => 2 ^ b
  | DegreeRepr.deg d => d

inductive ValueSize (V : Type) where
  | Const (bytes : Nat)
  | Variable (f : V → Nat)

/-- `Coding::write_internal_nodes_count`: VByte of `l = len - 1` (a `u32`
cast of a `usize`), then the first `l` entries as VBytes (the trailing
zero entry is not written). -/
def write_internal_nodes_count (inc : List Nat) : List Nat :=
  vbyteWrite ((inc.length - 1) % 2 ^ 32)
    ++ ((inc.take (inc.length - 1)).map vbyteWrite).flatten

def write_internal_nodes_count_bytes (inc : List Nat) : Nat :=
  vbyteLen ((inc.length - 1) % 2 ^ 32)
    + ((inc.take (inc.length - 1)).map vbyteLen).sum

/-- `Coding::read_internal_nodes_count`: read `s`, then `s` VBytes, then
push the trailing `0`. -/
def read_internal_nodes_count (input : List Nat) :
    Option (List Nat × List Nat) :=
  match vbyteRead input with
  | some (s, rest) =>
    match readSeq vbyteRead s rest with
    | some (vs, rest2) => some (vs ++ [0], rest2)
    | none => none
  | none => none

/-- `Coding::write_values`: VByte of `values.len() as u32`, then each
value through the caller-supplied writer. -/
def write_values {V : Type} (writeValue : V → List Nat)
    (values : List V) : List Nat :=
  vbyteWrite (values.length % 2 ^ 32) ++ (values.map writeValue).flatten

def write_values_size_bytes {V : Type} (values : List V)
    (vs : ValueSize V) : Nat :=
  vbyteLen (values.length % 2 ^ 32) +
    match vs with
    | ValueSize.Const b => b * values.length
    | ValueSize.Variable f => (values.map f).sum

def read_values {V : Type} (readValue : List Nat → Option (V × List Nat))
    (input : List Nat) : Option (List V × List Nat) :=
  match vbyteRead input with
  | some (s, rest) => readSeq readValue s rest
  | none => none

/-- `Coding::write`: degree, then `internal_nodes_count`, then values. -/
def coding_write {V : Type} (writeValue : V → List Nat) (dr : DegreeRepr)
    (c : Coding V) : List Nat :=
  degree_write dr ++ write_internal_nodes_count c.internalNodesCount
    ++ write_values writeValue c.values

/-- `Coding::read`: degree, `internal_nodes_count`, values; the coding is
rebuilt with the degree just read. -/
def coding_read {V : Type} (dread : List Nat → Option (DegreeRepr × List Nat))
    (readValue : List Nat → Option (V × List Nat)) (input : List Nat) :
    Option ((DegreeRepr × Coding V) × List Nat) :=
  match dread input with
  | some (dr, r1) =>
    match read_internal_nodes_count r1 with
    | some (inc, r2) =>
      match read_values readValue r2 with
      | some (vals, r3) => some ((dr, ⟨vals, inc, asDegree dr⟩), r3)
      | none => none
    | none => none
  | none => none

def write_size_bytes {V : Type} (dr : DegreeRepr) (c : Coding V)
    (vs : ValueSize V) : Nat :=
  degree_write_size_bytes dr
    + write_internal_nodes_count_bytes c.internalNodesCount
    + write_values_size_bytes c.values vs

theorem inc_roundtrip (inc0 : List Nat) (rest : List Nat)
    (hsz : inc0.length < 2 ^ 32) :
    read_internal_nodes_count (write_internal_nodes_count (inc0 ++ [0]) ++ rest)
      = some (inc0 ++ [0], rest) := by
  rw [write_internal_nodes_count]
  have h1 : (inc0 ++ [0]).length - 1 = inc0.length := by simp
  rw [h1, Nat.mod_eq_of_lt hsz, List.take_left, List.append_assoc]
  unfold read_internal_nodes_count
  simp only [vbyteWrite_read,
    readSeq_write vbyteWrite vbyteRead vbyteWrite_read inc0 rest]

theorem values_roundtrip {V : Type} (writeValue : V → List Nat)
    (readValue : List Nat → Option (V × List Nat))
    (hval : ∀ v rest, readValue (writeValue v ++ rest) = some (v, rest))
    (vals : List V) (rest : List Nat) (hsz : vals.length < 2 ^ 32) :
    read_values readValue (write_values writeValue vals ++ rest)
      = some (vals, rest) := by
  rw [write_values, Nat.mod_eq_of_lt hsz, List.append_assoc]
  unfold read_values
  simp only [vbyteWrite_read, readSeq_write writeValue readValue hval vals rest]

theorem write_inc_length (inc : List Nat) :
    (write_internal_nodes_count inc).length
      = write_internal_nodes_count_bytes inc := by
  rw [write_internal_nodes_count, write_internal_nodes_count_bytes,
    List.length_append, vbyteWrite_length, List.length_flatten, List.map_map]
  congr 1
  rw [show (List.length ∘ vbyteWrite) = vbyteLen from funext vbyteWrite_length]

theorem degree_write_length (dr : DegreeRepr) :
    (degree_write dr).length = degree_write_size_bytes dr := by
  cases dr with
  | bpf b => rfl
  | deg d => exact vbyteWrite_length d

theorem sum_map_const {V : Type} (b : Nat) (l : List V) :
    (l.map (fun v => b)).sum = b * l.length := by
  induction l with
  | nil => rfl
  | cons x l ih =>
    rw [List.map_cons, List.sum_cons, ih, List.length_cons, Nat.mul_succ]
    omega

/-- C8 (confirmed): `write` then `read` (with compatible degree and value
readers) returns the same degree, the same `internal_nodes_count`
(trailing zero reconstructed) and the same values, leaving the rest of
the stream untouched; and `write_size_bytes` (degree + internal nodes +
values parts) equals the number of bytes actually written, for a
`Variable` value-size callback as well as for a `Const` one. -/
theorem c8_coding_serde {V : Type} (writeValue : V → List Nat)
    (readValue : List Nat → Option (V × List Nat))
    (dread : List Nat → Option (DegreeRepr × List Nat)) (dr : DegreeRepr)
    (c : Coding V) (inc0 : List Nat) (extra : List Nat)
    (bpv : Nat) (fsize : V → Nat)
    (hval : ∀ v rest, readValue (writeValue v ++ rest) = some (v, rest))
    (hdr : ∀ rest, dread (degree_write dr ++ rest) = some (dr, rest))
    (hdeg : asDegree dr = c.degree)
    (hinc : c.internalNodesCount = inc0 ++ [0])
    (hszinc : inc0.length < 2 ^ 32) (hszval : c.values.length < 2 ^ 32) :
    coding_read dread readValue (coding_write writeValue dr c ++ extra)
      = some ((dr, c), extra) ∧
    ((∀ v, (writeValue v).length = fsize v) →
      write_size_bytes dr c (ValueSize.Variable fsize)
        = (coding_write writeValue dr c).length) ∧
    ((∀ v, (writeValue v).length = bpv) →
      write_size_bytes dr c (ValueSize.Const bpv)
        = (coding_write writeValue dr c).length) := by
  obtain ⟨cvals, cinc, cdeg⟩ := c
  simp only [] at hdeg hinc hszval
  subst hinc
  subst hdeg
  refine ⟨?_, ?_, ?_⟩
  · rw [coding_write]
    simp only []
    rw [List.append_assoc, List.append_assoc]
    unfold coding_read
    simp only [hdr, inc_roundtrip inc0 _ hszinc,
      values_roundtrip writeValue readValue hval cvals _ hszval]
  · intro h
    rw [write_size_bytes, coding_write, List.length_append, List.length_append,
      degree_write_length, write_inc_length]
    congr 1
    rw [show write_values_size_bytes cvals (ValueSize.Variable fsize)
        = vbyteLen (cvals.length % 2 ^ 32) + (cvals.map fsize).sum from rfl,
      write_values, List.length_append, vbyteWrite_length,
      List.length_flatten, List.map_map,
      show (List.length ∘ writeValue) = fsize from funext h]
  · intro h
    rw [write_size_bytes, coding_write, List.length_append, List.length_append,
      degree_write_length, write_inc_length]
    congr 1
    rw [show write_values_size_bytes cvals (ValueSize.Const bpv)
        = vbyteLen (cvals.length % 2 ^ 32) + bpv * cvals.length from rfl,
      write_values, List.length_append, vbyteWrite_length,
      List.length_flatten, List.map_map,
      show (List.length ∘ writeValue) = (fun v => bpv) from funext h,
      sum_map_const]

/-- C8 witness: a two-value degree-2 coding with one-byte values
round-trips and both size predictions are exact. -/
theorem c8_witness :
    coding_read degree_read_bpf
        (fun input => match input with
          | [] => none
          | b :: rest => some (b, rest))
        (coding_write (fun v => [v]) (DegreeRepr.bpf 1)
          ⟨[10, 20], [1, 0], 2⟩ ++ [99])
      = some ((DegreeRepr.bpf 1, ⟨[10, 20], [1, 0], 2⟩), [99]) ∧
    ((∀ v : Nat, ([v] : List Nat).length = (fun _ : Nat => 1) v) →
      write_size_bytes (DegreeRepr.bpf 1) (⟨[10, 20], [1, 0], 2⟩ : Coding Nat)
          (ValueSize.Variable (fun v => 1))
        = (coding_write (fun v => [v]) (DegreeRepr.bpf 1)
            ⟨[10, 20], [1, 0], 2⟩).length) ∧
    ((∀ v : Nat, ([v] : List Nat).length = 1) →
      write_size_bytes (DegreeRepr.bpf 1) (⟨[10, 20], [1, 0], 2⟩ : Coding Nat)
          (ValueSize.Const 1)
        = (coding_write (fun v => [v]) (DegreeRepr.bpf 1)
            ⟨[10, 20], [1, 0], 2⟩).length) :=
  c8_coding_serde (fun v => [v])
    (fun input => match input with
      | [] => none
      | b :: rest => some (b, rest))
    degree_read_bpf (DegreeRepr.bpf 1) ⟨[10, 20], [1, 0], 2⟩ [1] [99]
    1 (fun v => 1)
    (fun v rest => rfl) (fun rest => rfl) rfl rfl (by decide) (by decide)

def vbyteArrayWrite (xs : List Nat) : List Nat :=
  vbyteWrite xs.length ++ (xs.map vbyteWrite).flatten

def vbyteArraySize (xs : List Nat) : Nat :=
  vbyteLen xs.length + (xs.map vbyteLen).sum

def vbyteArrayRead (input : List Nat) : Option (List Nat × List Nat) :=
  match vbyteRead input with
  | some (s, rest) => readSeq vbyteRead s rest
  | none => none

def leBytes : Nat → Nat → List Nat
  | 0, _ => []
  | n + 1, w => (w % 256) :: leBytes n (w / 256)

def leRead : Nat → List Nat → Option (Nat × List Nat)
  | 0, input => some (0, input)
  | n + 1, input =>
    match input with
    | [] => none
    | b :: rest =>
      match leRead n rest with
      | some (v, rest2) => some (b + 256 * v, rest2)
      | none => none

/-- `Function::write`: the level sizes as a VByte array, then the bit
content as raw 64-bit words. -/
def fmphWrite (lsizes content : List Nat) : List Nat :=
  vbyteArrayWrite lsizes ++ (content.map (leBytes 8)).flatten

/-- `Function::write_bytes`: VByte array size of the level sizes plus
8 bytes per content word. -/
def fmphWriteBytes (lsizes content : List Nat) : Nat :=
  vbyteArraySize lsizes + 8 * content.length

/-- `Function::read_with_hasher`: read the level sizes, sum them to know
how many words to read, read the words (the rank structure is rebuilt
from the content and is not part of the stream). -/
def fmphRead (input : List Nat) : Option ((List Nat × List Nat) × List Nat) :=
  match vbyteArrayRead input with
  | some (lsizes, rest) =>
    match readSeq (leRead 8) lsizes.sum rest with
    | some (content, rest2) => some ((lsizes, content), rest2)
    | none => none
  | none => none

theorem vbyteArray_roundtrip (xs rest : List Nat) :
    vbyteArrayRead (vbyteArrayWrite xs ++ rest) = some (xs, rest) := by
  rw [vbyteArrayWrite, List.append_assoc]
  unfold vbyteArrayRead
  simp only [vbyteWrite_read, readSeq_write vbyteWrite vbyteRead vbyteWrite_read xs rest]

theorem vbyteArray_length (xs : List Nat) :
    (vbyteArrayWrite xs).length = vbyteArraySize xs := by
  rw [vbyteArrayWrite, vbyteArraySize, List.length_append, vbyteWrite_length,
    List.length_flatten, List.map_map,
    show (List.length ∘ vbyteWrite) = vbyteLen from funext vbyteWrite_length]

theorem leBytes_succ (n w : Nat) :
    leBytes (n + 1) w = (w % 256) :: leBytes n (w / 256) := rfl

theorem leRead_succ_cons (n b : Nat) (rest : List Nat) :
    leRead (n + 1) (b :: rest) =
      match leRead n rest with
      | some (v, rest2) => some (b + 256 * v, rest2)
      | none => none := rfl

theorem leBytes_read : ∀ n w (rest : List Nat), w < 256 ^ n →
    leRead n (leBytes n w ++ rest) = some (w, rest) := by
  intro n
  induction n with
  | zero =>
    intro w rest hw
    rw [pow_zero] at hw
    have hw0 : w = 0 := by omega
    subst hw0
    rfl
  | succ n ih =>
    intro w rest hw
    rw [leBytes_succ, List.cons_append, leRead_succ_cons]
    have hw2 : w / 256 < 256 ^ n := by
      rw [pow_succ] at hw
      omega
    simp only [ih (w / 256) rest hw2]
    have h2 : w % 256 + 256 * (w / 256) = w := by omega
    rw [h2]

theorem leBytes_length : ∀ n w, (leBytes n w).length = n := by
  intro n
  induction n with
  | zero => intro w; rfl
  | succ n ih =>
    intro w
    rw [leBytes_succ, List.length_cons, ih]

theorem readSeq_write_mem {V : Type} (wr : V → List Nat)
    (rd : List Nat → Option (V × List Nat)) :
    ∀ (xs : List V),
      (∀ v ∈ xs, ∀ rest, rd (wr v ++ rest) = some (v, rest)) →
      ∀ rest, readSeq rd xs.length ((xs.map wr).flatten ++ rest)
        = some (xs, rest) := by
  intro xs
  induction xs with
  | nil => intro h rest; rfl
  | cons x xs ih =>
    intro h rest
    rw [List.length_cons, List.map_cons, List.flatten_cons, List.append_assoc,
      readSeq_succ]
    simp only [h x (List.mem_cons_self x xs) _,
      ih (fun v hv r => h v (List.mem_cons_of_mem x hv) r) rest]

/-- C9 (confirmed): writing a `Function` (its level sizes and bit-array
content) and reading the bytes back yields identical level sizes and
content — hence `get` computes identically for every key — and
`write_bytes` equals the number of bytes written. -/
theorem c9_function_serde {K : Type} (hash : K → Nat → Nat)
    (lsizes content extra : List Nat)
    (hlen : content.length = lsizes.sum)
    (hw : ∀ w ∈ content, w < 2 ^ 64) :
    fmphRead (fmphWrite lsizes content ++ extra)
      = some ((lsizes, content), extra) ∧
    fmphWriteBytes lsizes content = (fmphWrite lsizes content).length ∧
    (∀ (ls2 c2 rest2 : List Nat),
      fmphRead (fmphWrite lsizes content ++ extra) = some ((ls2, c2), rest2) →
      ∀ k : K, getAux hash c2 ls2 k 0 0 = getAux hash content lsizes k 0 0) := by
  have hround : fmphRead (fmphWrite lsizes content ++ extra)
      = some ((lsizes, content), extra) := by
    rw [fmphWrite, List.append_assoc]
    unfold fmphRead
    simp only [vbyteArray_roundtrip]
    rw [← hlen]
    simp only [readSeq_write_mem (leBytes 8) (leRead 8) content
      (fun w hwm rest => leBytes_read 8 w rest (by
        have h1 := hw w hwm
        norm_num at h1 ⊢
        omega)) extra]
  refine ⟨hround, ?_, ?_⟩
  · rw [fmphWrite, fmphWriteBytes, List.length_append, vbyteArray_length,
      List.length_flatten, List.map_map,
      show (List.length ∘ leBytes 8) = (fun w => 8) from
        funext (fun w => leBytes_length 8 w),
      sum_map_const]
  · intro ls2 c2 rest2 h2 k
    rw [hround] at h2
    have h3 := Option.some.inj h2
    have h4 : ls2 = lsizes := by
      have := congrArg (fun p => p.1.1) h3
      exact this.symm
    have h5 : c2 = content := by
      have := congrArg (fun p => p.1.2) h3
      exact this.symm
    rw [h4, h5]

/-- C9 witness: a one-level function with a single content word. -/
theorem c9_witness :
    fmphRead (fmphWrite [1] [4295032833] ++ [7])
      = some (([1], [4295032833]), [7]) ∧
    fmphWriteBytes [1] [4295032833] = (fmphWrite [1] [4295032833]).length ∧
    (∀ (ls2 c2 rest2 : List Nat),
      fmphRead (fmphWrite [1] [4295032833] ++ [7]) = some ((ls2, c2), rest2) →
      ∀ k : Nat, getAux (fun (k : Nat) s => (k * 2 ^ 62 + s) % 2 ^ 64) c2 ls2 k 0 0
        = getAux (fun (k : Nat) s => (k * 2 ^ 62 + s) % 2 ^ 64)
            [4295032833] [1] k 0 0) :=
  c9_function_serde (fun (k : Nat) s => (k * 2 ^ 62 + s) % 2 ^ 64)
    [1] [4295032833] [7] (by decide) (by norm_num)

end BSuccinct
